import Mathlib

/-!
Kalendaryo, a school event calendar: verification of its algorithms.

A shallow embedding of `src/kalendaryo.cpp` (segment tree over event dates, binary search,
keyword scan, merge sort by priority) together with proofs about it.

Modelling conventions.

* `vector<T>` is a `List T`; an index expression `v[i]` is a checked access (`getAt`, `setAt`)
  that yields `Fault.outOfBounds` when `i` is outside `[0, size)`.
* `int` values are mathematical integers (`Int`); `/` on `int` is `Int.tdiv`, which truncates
  towards zero as in C++.  Overflow of `int` (undefined behaviour in C++) needs a collection of
  more than `2^29` records and is outside the model.
* `std::string` is a `String`, a sequence of characters compared one by one.
* Recursion and loops take a `fuel : Nat`; running out of it is `Fault.outOfFuel`.  The theorems
  state how much fuel is enough for the result to be produced.
* `Event*` results are modelled by the index of the pointed-to cell.
-/

namespace Kalendaryo

/-! ## Data model -/

/-- Record of the calendar: `struct Event`. -/
structure Event where
  name : String
  description : String
  date : Int
  priority : Int
deriving DecidableEq, Repr

/-- Ways in which a run of the program can fail to produce a value. -/
inductive Fault where
  | outOfBounds
  | badAlloc
  | uninitRead
  | outOfFuel
deriving DecidableEq, Repr

deriving instance DecidableEq for Except

/-- Checked read `xs[i]` with an `int` index. -/
def getAt {α : Type} (xs : List α) (i : Int) : Except Fault α :=
  if 0 ≤ i then
    match xs[i.toNat]? with
    | some x => .ok x
    | none => .error .outOfBounds
  else .error .outOfBounds

/-- Checked write `xs[i] = v` with an `int` index. -/
def setAt {α : Type} (xs : List α) (i : Int) (v : α) : Except Fault (List α) :=
  if 0 ≤ i ∧ i.toNat < xs.length then .ok (xs.set i.toNat v) else .error .outOfBounds

/-! ## Library functions used by the program -/

/-- Loop of `std::merge(first1, last1, first2, last2, out, comp)`: while both ranges are
non-empty the head of the second range is emitted when `comp(*first2, *first1)` holds and the
head of the first range otherwise; the remaining range is copied. The first argument bounds the
number of iterations; with the bound given by `stdMerge` its `0` case is met only when both
ranges are empty. -/
def stdMergeLoop {α : Type} (comp : α → α → Bool) : Nat → List α → List α → List α
  | 0, xs, ys => xs ++ ys
  | _ + 1, [], ys => ys
  | _ + 1, x :: xs, [] => x :: xs
  | fuel + 1, x :: xs, y :: ys =>
    if comp y x then y :: stdMergeLoop comp fuel (x :: xs) ys
    else x :: stdMergeLoop comp fuel xs (y :: ys)

/-- The function `std::merge` on two ranges, writing to a fresh output. -/
def stdMerge {α : Type} (comp : α → α → Bool) (xs ys : List α) : List α :=
  stdMergeLoop comp (xs.length + ys.length) xs ys

/-- Scan of `std::string::find(kw)` from position `pos`: the lowest position at which `kw`
occurs in the text, `none` standing for `npos`. -/
def findFrom (kw : List Char) : List Char → Nat → Option Nat
  | [], pos => if kw.isPrefixOf [] then some pos else none
  | c :: s, pos => if kw.isPrefixOf (c :: s) then some pos else findFrom kw s (pos + 1)

/-- The call `s.find(kw)` of `std::string`. -/
def strFind (s kw : String) : Option Nat := findFrom kw.data s.data 0

/-- Decimal digits of `n`, most significant first, as the conversion `%d` prints a non-negative
value. The first argument bounds the number of digits. -/
def decimalDigits : Nat → Nat → List Char
  | 0, _ => []
  | fuel + 1, n =>
    if n < 10 then [Nat.digitChar n]
    else decimalDigits fuel (n / 10) ++ [Nat.digitChar (n % 10)]

/-- Text printed by `%d` for a non-negative value (a value `n` has at most `n + 1` digits). -/
def printDecimal (n : Nat) : List Char := decimalDigits (n + 1) n

/-- Padding with `'0'` on the left up to `width` characters. -/
def zeroFill (width : Nat) (digits : List Char) : List Char :=
  List.replicate (width - digits.length) '0' ++ digits

/-- Text printed by the conversion `%0<width>d` of `sprintf` for the `int` value `v`: the
decimal digits, filled with zeros on the left up to the width, after the sign if there is one. -/
def printPadded (width : Nat) (v : Int) : List Char :=
  if v < 0 then '-' :: zeroFill (width - 1) (printDecimal (-v).toNat)
  else zeroFill width (printDecimal v.toNat)

/-! ## Date formatting -/

/-- Function `formatDate(date)`: `sprintf(buffer, "%04d/%02d/%02d", year, month, day)` into
`char buffer[11]`, which has room for ten characters and the terminating zero. -/
def formatDate (date : Int) : Except Fault String :=
  let year := date.tdiv 10000
  let month := (date.tdiv 100).tmod 100
  let day := date.tmod 100
  let text := printPadded 4 year ++ '/' :: printPadded 2 month ++ '/' :: printPadded 2 day
  if text.length + 1 ≤ 11 then .ok (String.mk text) else .error .outOfBounds

/-! ## SegmentTree -/

/-- Comparator lambda of the segment tree: `a.date < b.date`. -/
def byDate (a b : Event) : Bool := decide (a.date < b.date)

/-- Method `SegmentTree::buildTree(events, node, start, end)`, threading the node array. -/
def buildTree (events : List Event) :
    Nat → List (List Event) → Int → Int → Int → Except Fault (List (List Event))
  | 0, _, _, _, _ => .error .outOfFuel
  | fuel + 1, tree, node, start, stop =>
    if start = stop then do
      let ev ← getAt events start
      setAt tree node [ev]
    else do
      let mid := (start + stop).tdiv 2
      let tree ← buildTree events fuel tree (2 * node + 1) start mid
      let tree ← buildTree events fuel tree (2 * node + 2) (mid + 1) stop
      let lhs ← getAt tree (2 * node + 1)
      let rhs ← getAt tree (2 * node + 2)
      let cur ← getAt tree node
      setAt tree node (cur ++ stdMerge byDate lhs rhs)

/-- Class `SegmentTree`: the node array and the size of the indexed collection. -/
structure SegmentTree where
  tree : List (List Event)
  size : Int
deriving DecidableEq, Repr

/-- Constructor `SegmentTree::SegmentTree(events)`. -/
def SegmentTree.build (fuel : Nat) (events : List Event) : Except Fault SegmentTree := do
  let size : Int := events.length
  let tree : List (List Event) := List.replicate (4 * size).toNat []
  let tree ← buildTree events fuel tree 0 0 (size - 1)
  pure { tree := tree, size := size }

/-- Method `SegmentTree::query(node, start, end, l, r)`. -/
def queryNode (tree : List (List Event)) :
    Nat → Int → Int → Int → Int → Int → Except Fault (List Event)
  | 0, _, _, _, _, _ => .error .outOfFuel
  | fuel + 1, node, start, stop, l, r =>
    if r < start ∨ l > stop then .ok []
    else if l ≤ start ∧ r ≥ stop then getAt tree node
    else do
      let mid := (start + stop).tdiv 2
      let left ← queryNode tree fuel (2 * node + 1) start mid l r
      let right ← queryNode tree fuel (2 * node + 2) (mid + 1) stop l r
      pure (stdMerge byDate left right)

/-- Method `SegmentTree::query(l, r)`. -/
def SegmentTree.query (t : SegmentTree) (fuel : Nat) (l r : Int) : Except Fault (List Event) :=
  queryNode t.tree fuel 0 0 (t.size - 1) l r

/-! ## Search -/

/-- The `while (low <= high)` loop of `binarySearch`; the result is the index of the cell whose
address is returned, `none` standing for `nullptr`. -/
def binarySearchLoop (events : List Event) (date : Int) :
    Nat → Int → Int → Except Fault (Option Int)
  | 0, _, _ => .error .outOfFuel
  | fuel + 1, low, high =>
    if low ≤ high then do
      let mid := (low + high).tdiv 2
      let ev ← getAt events mid
      if ev.date = date then pure (some mid)
      else if ev.date < date then binarySearchLoop events date fuel (mid + 1) high
      else binarySearchLoop events date fuel low (mid - 1)
    else pure none

/-- Function `binarySearch(events, date)`. -/
def binarySearch (fuel : Nat) (events : List Event) (date : Int) : Except Fault (Option Int) :=
  binarySearchLoop events date fuel 0 ((events.length : Int) - 1)

/-- Condition of the `if` in `linearSearch`. -/
def matchesKeyword (keyword : String) (event : Event) : Bool :=
  (strFind event.name keyword).isSome || (strFind event.description keyword).isSome

/-- Function `linearSearch(events, keyword)`: one `push_back` per matching record. -/
def linearSearch (events : List Event) (keyword : String) : List Event :=
  events.foldl (fun result event =>
    if matchesKeyword keyword event then result ++ [event] else result) []

/-! ## Merge sort by priority -/

/-- State of the loops of `merge`: the cursors `i`, `j`, `k` and the buffer `temp`, whose cells
hold no value until they are written. -/
structure MergeState where
  i : Int
  j : Int
  k : Int
  temp : List (Option Event)
deriving DecidableEq, Repr

/-- First loop of `merge`: `while (i <= mid && j <= right)`. -/
def mergeLoop (events : List Event) (mid right : Int) : Nat → MergeState → Except Fault MergeState
  | 0, _ => .error .outOfFuel
  | fuel + 1, st =>
    if st.i ≤ mid ∧ st.j ≤ right then do
      let a ← getAt events st.i
      let b ← getAt events st.j
      if a.priority < b.priority then do
        let temp ← setAt st.temp st.k (some a)
        mergeLoop events mid right fuel { st with i := st.i + 1, k := st.k + 1, temp := temp }
      else do
        let temp ← setAt st.temp st.k (some b)
        mergeLoop events mid right fuel { st with j := st.j + 1, k := st.k + 1, temp := temp }
    else pure st

/-- Second loop of `merge`: `while (i <= mid) temp[k++] = events[i++]`. -/
def copyLeft (events : List Event) (mid : Int) : Nat → MergeState → Except Fault MergeState
  | 0, _ => .error .outOfFuel
  | fuel + 1, st =>
    if st.i ≤ mid then do
      let a ← getAt events st.i
      let temp ← setAt st.temp st.k (some a)
      copyLeft events mid fuel { st with i := st.i + 1, k := st.k + 1, temp := temp }
    else pure st

/-- Third loop of `merge`: `while (j <= right) temp[k++] = events[j++]`. -/
def copyRight (events : List Event) (right : Int) : Nat → MergeState → Except Fault MergeState
  | 0, _ => .error .outOfFuel
  | fuel + 1, st =>
    if st.j ≤ right then do
      let b ← getAt events st.j
      let temp ← setAt st.temp st.k (some b)
      copyRight events right fuel { st with j := st.j + 1, k := st.k + 1, temp := temp }
    else pure st

/-- Last loop of `merge`: `for (p = 0; p < k; ++p) events[left + p] = temp[p]`. -/
def copyBack (temp : List (Option Event)) (left k : Int) :
    Nat → Int → List Event → Except Fault (List Event)
  | 0, _, _ => .error .outOfFuel
  | fuel + 1, p, events =>
    if p < k then do
      let cell ← getAt temp p
      match cell with
      | none => .error .uninitRead
      | some v =>
        let events ← setAt events (left + p) v
        copyBack temp left k fuel (p + 1) events
    else pure events

/-- Function `merge(events, left, mid, right)`. -/
def merge (fuel : Nat) (events : List Event) (left mid right : Int) : Except Fault (List Event) :=
  if right - left + 1 < 0 then .error .badAlloc
  else do
    let temp : List (Option Event) := List.replicate (right - left + 1).toNat none
    let st ← mergeLoop events mid right fuel { i := left, j := mid + 1, k := 0, temp := temp }
    let st ← copyLeft events mid fuel st
    let st ← copyRight events right fuel st
    copyBack st.temp left st.k fuel 0 events

/-- Function `mergeSortByPriority(events, left, right)`. -/
def mergeSortByPriority : Nat → List Event → Int → Int → Except Fault (List Event)
  | 0, _, _, _ => .error .outOfFuel
  | fuel + 1, events, left, right =>
    if left ≥ right then pure events
    else do
      let mid := (left + right).tdiv 2
      let events ← mergeSortByPriority fuel events left mid
      let events ← mergeSortByPriority fuel events (mid + 1) right
      merge fuel events left mid right


/-! ## Specification vocabulary -/

/-- Insertion of `a` in front of the first element whose key is not below the key of `a`. -/
def insertBy {α : Type} (key : α → Int) (a : α) : List α → List α
  | [] => [a]
  | x :: xs => if key a ≤ key x then a :: x :: xs else x :: insertBy key a xs

/-- Stable sort by ascending key: elements of equal key keep the order they have in the input. -/
def stableSortBy {α : Type} (key : α → Int) : List α → List α
  | [] => []
  | a :: l => insertBy key a (stableSortBy key l)

/-- The list is ordered by non-decreasing key. -/
def SortedBy {α : Type} (key : α → Int) (l : List α) : Prop :=
  l.Pairwise (fun a b => key a ≤ key b)

/-- The elements of `l` whose key is `d`, in the order they have in `l`. -/
def withKey {α : Type} (key : α → Int) (d : Int) (l : List α) : List α :=
  l.filter (fun a => decide (key a = d))

/-- The cells at positions `a, a+1, ..., b` of `xs`, in positional order. -/
def slice {α : Type} (xs : List α) (a b : Nat) : List α :=
  (xs.drop a).take (b + 1 - a)

/-- Index `j` lies in the subtree rooted at index `k` of the implicit binary tree in which the
children of `i` are `2 * i + 1` and `2 * i + 2`. -/
inductive Desc (k : Nat) : Nat → Prop
  | self : Desc k k
  | left {j : Nat} : Desc k j → Desc k (2 * j + 1)
  | right {j : Nat} : Desc k j → Desc k (2 * j + 2)

/-- Structural invariant of the node array below the node `node` that covers positions
`start..stop`: a leaf holds the one record of its position, an internal node holds the
`std::merge` by date of the lists of its two children, and every list is ordered by date. -/
inductive NodeInv (events : List Event) (tree : List (List Event)) : Nat → Nat → Nat → Prop
  | leaf (node pos : Nat) (e : Event) :
      events[pos]? = some e → tree[node]? = some [e] → NodeInv events tree node pos pos
  | inner (node start stop : Nat) (lhs rhs : List Event) :
      start < stop →
      NodeInv events tree (2 * node + 1) start ((start + stop) / 2) →
      NodeInv events tree (2 * node + 2) ((start + stop) / 2 + 1) stop →
      tree[2 * node + 1]? = some lhs →
      tree[2 * node + 2]? = some rhs →
      tree[node]? = some (stdMerge byDate lhs rhs) →
      SortedBy Event.date (stdMerge byDate lhs rhs) →
      NodeInv events tree node start stop

/-- The calls `buildTree(events, node, start, stop)` made while building over `n` records:
the root call on `[0, n - 1]` and, below every call with `start < stop`, the calls on the two
halves. -/
inductive Reached (n : Nat) : Nat → Nat → Nat → Prop
  | root : Reached n 0 0 (n - 1)
  | left {node start stop : Nat} :
      Reached n node start stop → start < stop →
      Reached n (2 * node + 1) start ((start + stop) / 2)
  | right {node start stop : Nat} :
      Reached n node start stop → start < stop →
      Reached n (2 * node + 2) ((start + stop) / 2 + 1) stop

/-- Records of the build-and-query scenario: dates `20240103, 20240101, 20240102` at positions
`0, 1, 2`. -/
def scenarioEvents : List Event :=
  [⟨"Recital", "", 20240103, 1⟩, ⟨"Orientation", "", 20240101, 2⟩, ⟨"Sports day", "", 20240102, 3⟩]

/-- Choice made by the first loop of `merge`, as a `std::merge` comparator: the head `y` of the
right run is taken unless the head `x` of the left run has a strictly smaller priority. -/
def takesRight (y x : Event) : Bool := !decide (x.priority < y.priority)

/-- Buffer `temp` of capacity `cap` whose first cells hold `acc` and whose other cells have not
been written. -/
def bufOf (acc : List Event) (cap : Nat) : List (Option Event) :=
  acc.map some ++ List.replicate (cap - acc.length) none

/-- Records of the sort-stability scenario: `(A, p=2), (B, p=1), (C, p=2)`. -/
def tieEvents : List Event :=
  [⟨"A", "", 20240101, 2⟩, ⟨"B", "", 20240101, 1⟩, ⟨"C", "", 20240101, 2⟩]

/-- Two distinct records of the same priority. -/
def twinEvents : List Event :=
  [⟨"A", "", 20240101, 1⟩, ⟨"B", "", 20240101, 1⟩]

/-- Records sorted by date, with distinct dates, for the exact-search scenario. -/
def datedEvents : List Event :=
  [⟨"Orientation", "", 20240101, 2⟩, ⟨"Sports day", "", 20240102, 3⟩, ⟨"Recital", "", 20240103, 1⟩]

/-- Three records carrying the same date, for the duplicate-date search scenario. -/
def sameDayEvents : List Event :=
  [⟨"Assembly", "", 20240101, 1⟩, ⟨"Quiz bee", "", 20240101, 2⟩, ⟨"Concert", "", 20240101, 3⟩]

/-- The number written by a list of decimal digit characters, most significant first. -/
def readDecimal (cs : List Char) : Nat :=
  cs.foldl (fun acc c => acc * 10 + (c.toNat - 48)) 0

/-- The cell `node` of the node array holds at least one record: the build has stored a node
there. A cell beyond the end of the array, or one left as `resize` made it, holds none. -/
def occupied (tree : List (List Event)) (node : Nat) : Bool :=
  match tree[node]? with
  | some (_ :: _) => true
  | _ => false

/-- Depth, in edges, of the tree stored in the node array below the cell `node`, the children
of the cell `i` being the cells `2 * i + 1` and `2 * i + 2` as in `buildTree`: a node with no
stored child is a leaf, of depth `0`. The first argument bounds the number of levels. -/
def nodeDepth (tree : List (List Event)) : Nat → Nat → Nat
  | 0, _ => 0
  | fuel + 1, node =>
    if occupied tree (2 * node + 1) || occupied tree (2 * node + 2) then
      1 + max (nodeDepth tree fuel (2 * node + 1)) (nodeDepth tree fuel (2 * node + 2))
    else 0

/-- Depth of the tree stored in the node array, from its root cell `0`; a tree in an array of
`m` cells has fewer than `m` levels. -/
def treeDepth (tree : List (List Event)) : Nat :=
  nodeDepth tree tree.length 0

/-- Shape of the stored tree below the node `node` that covers positions `start..stop`: the
node is stored; when `start = stop` neither child cell is stored; otherwise both children are
stored, with their own shapes on the two halves of the interval. -/
inductive Shape (tree : List (List Event)) : Nat → Nat → Nat → Prop
  | leaf (node pos : Nat) :
      occupied tree node = true →
      occupied tree (2 * node + 1) = false →
      occupied tree (2 * node + 2) = false →
      Shape tree node pos pos
  | inner (node start stop : Nat) :
      start < stop →
      occupied tree node = true →
      Shape tree (2 * node + 1) start ((start + stop) / 2) →
      Shape tree (2 * node + 2) ((start + stop) / 2 + 1) stop →
      Shape tree node start stop

/-- The records of a list whose positions, counted from `pos`, lie in `[l, r]`. -/
def pickRange (l r : Int) : Int → List Event → List Event
  | _, [] => []
  | pos, e :: es =>
    if l ≤ pos ∧ pos ≤ r then e :: pickRange l r (pos + 1) es else pickRange l r (pos + 1) es

/-- The records of `events` at the positions `p` with `l ≤ p ≤ r`, in positional order; the
positions of `events` are `0 .. n-1`, so this is the part of `[l, r]` inside `[0, n-1]`. -/
def recordsInRange (events : List Event) (l r : Int) : List Event :=
  pickRange l r 0 events

/-! ## Keyword scan -/

theorem findFrom_isSome (kw : List Char) (s : List Char) (pos : Nat) :
    (findFrom kw s pos).isSome = true ↔ kw <:+: s := by
  induction s generalizing pos with
  | nil =>
    unfold findFrom
    by_cases h : kw.isPrefixOf [] = true
    · simp only [h, if_true, Option.isSome_some, true_iff]
      exact (List.isPrefixOf_iff_prefix.mp h).isInfix
    · simp only [h, Bool.false_eq_true, if_false, Option.isSome_none, false_iff]
      intro hin
      apply h
      have : kw = [] := List.eq_nil_of_infix_nil hin
      subst this
      rfl
  | cons c s ih =>
    unfold findFrom
    by_cases h : kw.isPrefixOf (c :: s) = true
    · simp only [h, if_true, Option.isSome_some, true_iff]
      exact (List.isPrefixOf_iff_prefix.mp h).isInfix
    · simp only [h, Bool.false_eq_true, if_false]
      rw [ih, List.infix_cons_iff]
      constructor
      · intro hin; exact Or.inr hin
      · rintro (hp | hin)
        · exact absurd (List.isPrefixOf_iff_prefix.mpr hp) h
        · exact hin

theorem matchesKeyword_iff (keyword : String) (event : Event) :
    matchesKeyword keyword event = true ↔
      keyword.data <:+: event.name.data ∨ keyword.data <:+: event.description.data := by
  unfold matchesKeyword strFind
  rw [Bool.or_eq_true, findFrom_isSome, findFrom_isSome]

theorem foldl_push_eq_filter {α : Type} (p : α → Bool) (xs acc : List α) :
    xs.foldl (fun result x => if p x then result ++ [x] else result) acc = acc ++ xs.filter p := by
  induction xs generalizing acc with
  | nil => simp
  | cons x xs ih =>
    rw [List.foldl_cons, ih]
    by_cases h : p x = true
    · simp [h]
    · simp [h]

theorem linearSearch_eq_filter_matches (events : List Event) (keyword : String) :
    linearSearch events keyword = events.filter (matchesKeyword keyword) := by
  unfold linearSearch
  rw [foldl_push_eq_filter (matchesKeyword keyword) events []]
  rfl

/-- C7: `linearSearch` returns exactly the records whose name or description contains the
keyword as a contiguous, case-sensitive run of characters, in their original order (it is the
filter of the input by that predicate); in particular the names "Math Fair" and "Science Fair"
are both returned, in order, for the keyword "Fair". -/
theorem linearSearch_eq_filter (events : List Event) (keyword : String) :
    linearSearch events keyword =
        events.filter (fun e =>
          decide (keyword.data <:+: e.name.data) || decide (keyword.data <:+: e.description.data))
      ∧ ∀ (d₁ d₂ : String) (t₁ t₂ p₁ p₂ : Int),
          linearSearch [⟨"Math Fair", d₁, t₁, p₁⟩, ⟨"Science Fair", d₂, t₂, p₂⟩] "Fair" =
            [⟨"Math Fair", d₁, t₁, p₁⟩, ⟨"Science Fair", d₂, t₂, p₂⟩] := by
  have key : ∀ (evs : List Event) (kw : String), linearSearch evs kw =
      evs.filter (fun e =>
        decide (kw.data <:+: e.name.data) || decide (kw.data <:+: e.description.data)) := by
    intro evs kw
    rw [linearSearch_eq_filter_matches]
    apply List.filter_congr
    intro e _
    rw [Bool.eq_iff_iff, matchesKeyword_iff]
    simp
  refine ⟨key events keyword, ?_⟩
  intro d₁ d₂ t₁ t₂ p₁ p₂
  rw [key]
  have h₁ : "Fair".data <:+: "Math Fair".data := ⟨"Math ".data, [], by decide⟩
  have h₂ : "Fair".data <:+: "Science Fair".data := ⟨"Science ".data, [], by decide⟩
  simp [List.filter, h₁, h₂]

/-- C8: with the empty keyword `linearSearch` returns its whole input, unchanged and in order,
whatever the names and descriptions are (empty ones included). -/
theorem linearSearch_empty_keyword (events : List Event) :
    linearSearch events "" = events := by
  rw [linearSearch_eq_filter_matches]
  apply List.filter_eq_self.mpr
  intro e _
  rw [matchesKeyword_iff]
  exact Or.inl List.nil_infix

/-! ## Merging and stable sorting of lists -/

theorem stdMergeLoop_fuel {α : Type} (comp : α → α → Bool) (f g : Nat) (xs ys : List α)
    (hf : xs.length + ys.length ≤ f) (hg : xs.length + ys.length ≤ g) :
    stdMergeLoop comp f xs ys = stdMergeLoop comp g xs ys := by
  induction f generalizing g xs ys with
  | zero =>
    have hx : xs = [] := List.length_eq_zero.mp (by omega)
    have hy : ys = [] := List.length_eq_zero.mp (by omega)
    subst hx; subst hy
    cases g <;> rfl
  | succ f ih =>
    cases g with
    | zero =>
      have hx : xs = [] := List.length_eq_zero.mp (by omega)
      have hy : ys = [] := List.length_eq_zero.mp (by omega)
      subst hx; subst hy
      rfl
    | succ g =>
      cases xs with
      | nil => rfl
      | cons x xs =>
        cases ys with
        | nil => rfl
        | cons y ys =>
          simp only [List.length_cons] at hf hg
          simp only [stdMergeLoop]
          rw [ih g (x :: xs) ys (by simp only [List.length_cons]; omega)
                (by simp only [List.length_cons]; omega),
              ih g xs (y :: ys) (by simp only [List.length_cons]; omega)
                (by simp only [List.length_cons]; omega)]

theorem stdMerge_nil_left {α : Type} (comp : α → α → Bool) (ys : List α) :
    stdMerge comp [] ys = ys := by
  unfold stdMerge
  cases ys <;> rfl

theorem stdMerge_nil_right {α : Type} (comp : α → α → Bool) (xs : List α) :
    stdMerge comp xs [] = xs := by
  unfold stdMerge
  cases xs <;> rfl

theorem stdMerge_cons_cons {α : Type} (comp : α → α → Bool) (x y : α) (xs ys : List α) :
    stdMerge comp (x :: xs) (y :: ys) =
      if comp y x then y :: stdMerge comp (x :: xs) ys else x :: stdMerge comp xs (y :: ys) := by
  unfold stdMerge
  simp only [List.length_cons]
  rw [show xs.length + 1 + (ys.length + 1) = (xs.length + 1 + ys.length) + 1 from by omega]
  simp only [stdMergeLoop]
  rw [stdMergeLoop_fuel comp (xs.length + 1 + ys.length) (xs.length + (ys.length + 1)) xs (y :: ys)
        (by simp only [List.length_cons]; omega) (by simp only [List.length_cons]; omega)]

/-- Induction along the recursion of `stdMerge`. -/
theorem stdMerge_induction {α : Type} (comp : α → α → Bool) (P : List α → List α → Prop)
    (hnil : ∀ ys, P [] ys) (hnil2 : ∀ x xs, P (x :: xs) [])
    (htake2 : ∀ x xs y ys, comp y x = true → P (x :: xs) ys → P (x :: xs) (y :: ys))
    (htake1 : ∀ x xs y ys, comp y x = false → P xs (y :: ys) → P (x :: xs) (y :: ys))
    (xs ys : List α) : P xs ys := by
  induction xs generalizing ys with
  | nil => exact hnil ys
  | cons x xs ihx =>
    induction ys with
    | nil => exact hnil2 x xs
    | cons y ys ihy =>
      by_cases h : comp y x = true
      · exact htake2 x xs y ys h ihy
      · exact htake1 x xs y ys (by simpa using h) (ihx (y :: ys))

theorem stdMerge_perm {α : Type} (comp : α → α → Bool) (xs ys : List α) :
    (stdMerge comp xs ys).Perm (xs ++ ys) := by
  refine stdMerge_induction comp (fun xs ys => (stdMerge comp xs ys).Perm (xs ++ ys))
    ?_ ?_ ?_ ?_ xs ys
  · intro ys; rw [stdMerge_nil_left]; exact List.Perm.refl _
  · intro x xs; rw [stdMerge_nil_right, List.append_nil]
  · intro x xs y ys h ih
    rw [stdMerge_cons_cons, if_pos h]
    exact (List.Perm.cons y ih).trans (List.perm_middle.symm)
  · intro x xs y ys h ih
    rw [stdMerge_cons_cons, if_neg (by simp [h])]
    exact List.Perm.cons x ih

theorem stdMerge_sorted {α : Type} (key : α → Int) (comp : α → α → Bool)
    (hpos : ∀ a b, comp b a = true → key b ≤ key a)
    (hneg : ∀ a b, comp b a = false → key a ≤ key b) (xs ys : List α) :
    SortedBy key xs → SortedBy key ys → SortedBy key (stdMerge comp xs ys) := by
  refine stdMerge_induction comp
    (fun xs ys => SortedBy key xs → SortedBy key ys → SortedBy key (stdMerge comp xs ys))
    ?_ ?_ ?_ ?_ xs ys
  · intro ys _ hy; rw [stdMerge_nil_left]; exact hy
  · intro x xs hx _; rw [stdMerge_nil_right]; exact hx
  · intro x xs y ys h ih hx hy
    rw [stdMerge_cons_cons, if_pos h]
    unfold SortedBy at *
    rw [List.pairwise_cons] at hy ⊢
    refine ⟨?_, ih hx hy.2⟩
    intro b hb
    have hb' := (stdMerge_perm comp (x :: xs) ys).subset hb
    rw [List.mem_append] at hb'
    rcases hb' with hb' | hb'
    · have hyx := hpos x y h
      rw [List.pairwise_cons] at hx
      rcases List.mem_cons.mp hb' with rfl | hb''
      · exact hyx
      · exact le_trans hyx (hx.1 b hb'')
    · exact hy.1 b hb'
  · intro x xs y ys h ih hx hy
    rw [stdMerge_cons_cons, if_neg (by simp [h])]
    unfold SortedBy at *
    rw [List.pairwise_cons] at hx ⊢
    refine ⟨?_, ih hx.2 hy⟩
    intro b hb
    have hb' := (stdMerge_perm comp xs (y :: ys)).subset hb
    rw [List.mem_append] at hb'
    rcases hb' with hb' | hb'
    · exact hx.1 b hb'
    · have hxy := hneg x y h
      rw [List.pairwise_cons] at hy
      rcases List.mem_cons.mp hb' with rfl | hb''
      · exact hxy
      · exact le_trans hxy (hy.1 b hb'')

theorem withKey_nil {α : Type} (key : α → Int) (d : Int) : withKey key d ([] : List α) = [] := rfl

theorem withKey_cons {α : Type} (key : α → Int) (d : Int) (a : α) (l : List α) :
    withKey key d (a :: l) = if key a = d then a :: withKey key d l else withKey key d l := by
  unfold withKey
  by_cases h : key a = d
  · simp [h]
  · simp [h]

theorem withKey_append {α : Type} (key : α → Int) (d : Int) (l₁ l₂ : List α) :
    withKey key d (l₁ ++ l₂) = withKey key d l₁ ++ withKey key d l₂ := by
  unfold withKey
  exact List.filter_append _ _

theorem withKey_eq_nil_of_lt {α : Type} (key : α → Int) (d : Int) (l : List α)
    (h : ∀ b ∈ l, d < key b) : withKey key d l = [] := by
  unfold withKey
  rw [List.filter_eq_nil_iff]
  intro b hb
  have := h b hb
  simp only [decide_eq_true_eq]
  omega

/-- With strict comparison `key b < key a` for taking from the second list, elements of equal key
come out with those of the first list first. -/
theorem withKey_stdMerge_left {α : Type} (key : α → Int) (comp : α → α → Bool)
    (hcomp : ∀ a b, comp b a = decide (key b < key a)) (d : Int) (xs ys : List α) :
    SortedBy key xs → withKey key d (stdMerge comp xs ys) = withKey key d xs ++ withKey key d ys := by
  refine stdMerge_induction comp
    (fun xs ys => SortedBy key xs →
      withKey key d (stdMerge comp xs ys) = withKey key d xs ++ withKey key d ys)
    ?_ ?_ ?_ ?_ xs ys
  · intro ys _; rw [stdMerge_nil_left, withKey_nil, List.nil_append]
  · intro x xs _; rw [stdMerge_nil_right, withKey_nil, List.append_nil]
  · intro x xs y ys h ih hx
    rw [stdMerge_cons_cons, if_pos h, withKey_cons, ih hx, withKey_cons key d y ys]
    by_cases hd : key y = d
    · rw [if_pos hd, if_pos hd]
      rw [hcomp] at h
      have hlt : key y < key x := by simpa using h
      have hnil : withKey key d (x :: xs) = [] := by
        apply withKey_eq_nil_of_lt
        intro b hb
        unfold SortedBy at hx
        rw [List.pairwise_cons] at hx
        rcases List.mem_cons.mp hb with rfl | hb'
        · omega
        · have := hx.1 b hb'; omega
      rw [hnil, List.nil_append, List.nil_append]
    · rw [if_neg hd, if_neg hd]
  · intro x xs y ys h ih hx
    rw [stdMerge_cons_cons, if_neg (by simp [h]), withKey_cons, withKey_cons key d x xs]
    unfold SortedBy at hx
    rw [List.pairwise_cons] at hx
    rw [ih hx.2]
    by_cases hd : key x = d
    · rw [if_pos hd, if_pos hd, List.cons_append]
    · rw [if_neg hd, if_neg hd]

/-- With non-strict comparison `key b ≤ key a` for taking from the second list, elements of equal
key come out with those of the second list first. -/
theorem withKey_stdMerge_right {α : Type} (key : α → Int) (comp : α → α → Bool)
    (hcomp : ∀ a b, comp b a = decide (key b ≤ key a)) (d : Int) (xs ys : List α) :
    SortedBy key ys → withKey key d (stdMerge comp xs ys) = withKey key d ys ++ withKey key d xs := by
  refine stdMerge_induction comp
    (fun xs ys => SortedBy key ys →
      withKey key d (stdMerge comp xs ys) = withKey key d ys ++ withKey key d xs)
    ?_ ?_ ?_ ?_ xs ys
  · intro ys _; rw [stdMerge_nil_left, withKey_nil, List.append_nil]
  · intro x xs _; rw [stdMerge_nil_right, withKey_nil, List.nil_append]
  · intro x xs y ys h ih hy
    rw [stdMerge_cons_cons, if_pos h, withKey_cons, withKey_cons key d y ys]
    unfold SortedBy at hy
    rw [List.pairwise_cons] at hy
    rw [ih hy.2]
    by_cases hd : key y = d
    · rw [if_pos hd, if_pos hd, List.cons_append]
    · rw [if_neg hd, if_neg hd]
  · intro x xs y ys h ih hy
    rw [stdMerge_cons_cons, if_neg (by simp [h]), withKey_cons, ih hy, withKey_cons key d x xs]
    by_cases hd : key x = d
    · rw [if_pos hd, if_pos hd]
      rw [hcomp] at h
      have hlt : key x < key y := by simpa using h
      have hnil : withKey key d (y :: ys) = [] := by
        apply withKey_eq_nil_of_lt
        intro b hb
        unfold SortedBy at hy
        rw [List.pairwise_cons] at hy
        rcases List.mem_cons.mp hb with rfl | hb'
        · omega
        · have := hy.1 b hb'; omega
      rw [hnil, List.nil_append, List.nil_append]
    · rw [if_neg hd, if_neg hd]

/-- A list ordered by key is determined by its sub-lists of equal key. -/
theorem eq_of_sorted_of_withKey {α : Type} (key : α → Int) (l₁ l₂ : List α)
    (h₁ : SortedBy key l₁) (h₂ : SortedBy key l₂)
    (h : ∀ d, withKey key d l₁ = withKey key d l₂) : l₁ = l₂ := by
  induction l₁ generalizing l₂ with
  | nil =>
    cases l₂ with
    | nil => rfl
    | cons b t₂ =>
      have := h (key b)
      rw [withKey_nil, withKey_cons, if_pos rfl] at this
      exact absurd this (by simp)
  | cons a t₁ ih =>
    cases l₂ with
    | nil =>
      have := h (key a)
      rw [withKey_nil, withKey_cons, if_pos rfl] at this
      exact absurd this (by simp)
    | cons b t₂ =>
      unfold SortedBy at h₁ h₂
      rw [List.pairwise_cons] at h₁ h₂
      have hab : key a = key b := by
        rcases lt_trichotomy (key a) (key b) with hlt | heq | hgt
        · have h1 := h (key a)
          rw [withKey_cons, if_pos rfl, withKey_eq_nil_of_lt key (key a) (b :: t₂)] at h1
          · exact absurd h1 (by simp)
          · intro c hc
            rcases List.mem_cons.mp hc with rfl | hc'
            · exact hlt
            · have := h₂.1 c hc'; omega
        · exact heq
        · have h1 := h (key b)
          rw [withKey_cons key (key b) b, if_pos rfl,
            withKey_eq_nil_of_lt key (key b) (a :: t₁)] at h1
          · exact absurd h1 (by simp)
          · intro c hc
            rcases List.mem_cons.mp hc with rfl | hc'
            · exact hgt
            · have := h₁.1 c hc'; omega
      have h1 := h (key a)
      rw [withKey_cons, if_pos rfl, withKey_cons, if_pos hab.symm] at h1
      have hhead : a = b := (List.cons.inj h1).1
      subst hhead
      congr 1
      apply ih t₂ h₁.2 h₂.2
      intro d
      have hd := h d
      rw [withKey_cons, withKey_cons] at hd
      by_cases hk : key a = d
      · rw [if_pos hk, if_pos hk] at hd
        exact (List.cons.inj hd).2
      · rw [if_neg hk, if_neg hk] at hd
        exact hd

theorem insertBy_perm {α : Type} (key : α → Int) (a : α) (l : List α) :
    (insertBy key a l).Perm (a :: l) := by
  induction l with
  | nil => exact List.Perm.refl _
  | cons x xs ih =>
    unfold insertBy
    by_cases h : key a ≤ key x
    · rw [if_pos h]
    · rw [if_neg h]
      exact (List.Perm.cons x ih).trans (List.Perm.swap a x xs)

theorem insertBy_sorted {α : Type} (key : α → Int) (a : α) (l : List α)
    (hl : SortedBy key l) : SortedBy key (insertBy key a l) := by
  induction l with
  | nil => unfold insertBy SortedBy; simp
  | cons x xs ih =>
    unfold insertBy
    unfold SortedBy at hl
    have hl' := List.pairwise_cons.mp hl
    by_cases h : key a ≤ key x
    · rw [if_pos h]
      unfold SortedBy
      rw [List.pairwise_cons]
      refine ⟨?_, hl⟩
      intro b hb
      rcases List.mem_cons.mp hb with rfl | hb'
      · exact h
      · exact le_trans h (hl'.1 b hb')
    · rw [if_neg h]
      unfold SortedBy
      rw [List.pairwise_cons]
      refine ⟨?_, ih hl'.2⟩
      intro b hb
      have hb' := (insertBy_perm key a xs).subset hb
      rcases List.mem_cons.mp hb' with rfl | hb''
      · omega
      · exact hl'.1 b hb''

theorem withKey_insertBy {α : Type} (key : α → Int) (d : Int) (a : α) (l : List α)
    (hl : SortedBy key l) : withKey key d (insertBy key a l) = withKey key d (a :: l) := by
  induction l with
  | nil => rfl
  | cons x xs ih =>
    unfold insertBy
    unfold SortedBy at hl
    have hl' := List.pairwise_cons.mp hl
    by_cases h : key a ≤ key x
    · rw [if_pos h]
    · rw [if_neg h, withKey_cons, ih hl'.2]
      simp only [withKey_cons]
      by_cases hx : key x = d
      · have ha : ¬ key a = d := by omega
        simp only [if_pos hx, if_neg ha]
      · simp only [if_neg hx]

theorem stableSortBy_sorted {α : Type} (key : α → Int) (l : List α) :
    SortedBy key (stableSortBy key l) := by
  induction l with
  | nil => unfold stableSortBy SortedBy; exact List.Pairwise.nil
  | cons a l ih => unfold stableSortBy; exact insertBy_sorted key a _ ih

theorem stableSortBy_perm {α : Type} (key : α → Int) (l : List α) :
    (stableSortBy key l).Perm l := by
  induction l with
  | nil => exact List.Perm.refl _
  | cons a l ih =>
    unfold stableSortBy
    exact (insertBy_perm key a _).trans (List.Perm.cons a ih)

theorem withKey_stableSortBy {α : Type} (key : α → Int) (d : Int) (l : List α) :
    withKey key d (stableSortBy key l) = withKey key d l := by
  induction l with
  | nil => rfl
  | cons a l ih =>
    unfold stableSortBy
    rw [withKey_insertBy key d a _ (stableSortBy_sorted key l), withKey_cons, ih, withKey_cons]

/-- Characterisation of the stable sort: the only list ordered by key whose elements of each key
are those of the input in input order. -/
theorem eq_stableSortBy {α : Type} (key : α → Int) (l out : List α)
    (hs : SortedBy key out) (hk : ∀ d, withKey key d out = withKey key d l) :
    out = stableSortBy key l := by
  apply eq_of_sorted_of_withKey key out _ hs (stableSortBy_sorted key l)
  intro d
  rw [hk d, withKey_stableSortBy]

theorem stableSortBy_singleton {α : Type} (key : α → Int) (a : α) :
    stableSortBy key [a] = [a] := rfl

/-- Merging two stably sorted lists with `std::merge` and a strict comparison yields the stable
sort of the concatenation. -/
theorem stdMerge_stableSortBy {α : Type} (key : α → Int) (comp : α → α → Bool)
    (hcomp : ∀ a b, comp b a = decide (key b < key a)) (xs ys : List α) :
    stdMerge comp (stableSortBy key xs) (stableSortBy key ys) = stableSortBy key (xs ++ ys) := by
  apply eq_stableSortBy
  · apply stdMerge_sorted key comp _ _ _ _ (stableSortBy_sorted key xs) (stableSortBy_sorted key ys)
    · intro a b h; rw [hcomp] at h; have : key b < key a := by simpa using h
      omega
    · intro a b h; rw [hcomp] at h; have : ¬ key b < key a := by simpa using h
      omega
  · intro d
    rw [withKey_stdMerge_left key comp hcomp d _ _ (stableSortBy_sorted key xs),
      withKey_stableSortBy, withKey_stableSortBy, withKey_append]

/-! ## Checked accesses and slices -/

theorem tdiv_two_natCast (s e : Nat) : ((s : Int) + (e : Int)).tdiv 2 = (((s + e) / 2 : Nat) : Int) := by
  rw [Int.tdiv_eq_ediv (by omega) (by omega)]
  omega

theorem getAt_natCast {α : Type} (xs : List α) (i : Nat) (x : α) (h : xs[i]? = some x) :
    getAt xs (i : Int) = .ok x := by
  unfold getAt
  rw [if_pos (by omega), Int.toNat_natCast, h]

theorem getAt_of_lt {α : Type} (xs : List α) (i : Nat) (h : i < xs.length) :
    getAt xs (i : Int) = .ok xs[i] :=
  getAt_natCast xs i xs[i] (List.getElem?_eq_getElem h)

theorem setAt_natCast {α : Type} (xs : List α) (i : Nat) (v : α) (h : i < xs.length) :
    setAt xs (i : Int) v = .ok (xs.set i v) := by
  unfold setAt
  rw [Int.toNat_natCast, if_pos ⟨by omega, h⟩]

theorem slice_of_lt {α : Type} (xs : List α) (a b : Nat) (h : b < a) : slice xs a b = [] := by
  unfold slice
  rw [show b + 1 - a = 0 from by omega, List.take_zero]

theorem slice_cons {α : Type} (xs : List α) (a b : Nat) (hab : a ≤ b) (ha : a < xs.length) :
    slice xs a b = xs[a] :: slice xs (a + 1) b := by
  unfold slice
  rw [List.drop_eq_getElem_cons ha, show b + 1 - a = (b + 1 - (a + 1)) + 1 from by omega,
    List.take_succ_cons]

theorem slice_single {α : Type} (xs : List α) (a : Nat) (x : α) (h : xs[a]? = some x) :
    slice xs a a = [x] := by
  obtain ⟨ha, hx⟩ := List.getElem?_eq_some.mp h
  rw [slice_cons xs a a (le_refl a) ha, slice_of_lt xs (a + 1) a (by omega), hx]

theorem slice_append {α : Type} (xs : List α) (a b c : Nat) (hab : a ≤ b + 1) (hbc : b ≤ c) :
    slice xs a b ++ slice xs (b + 1) c = slice xs a c := by
  unfold slice
  rw [show c + 1 - a = (b + 1 - a) + (c + 1 - (b + 1)) from by omega, List.take_add,
    List.drop_drop, show a + (b + 1 - a) = b + 1 from by omega]

theorem slice_full {α : Type} (xs : List α) (b : Nat) (h : xs.length ≤ b + 1) :
    slice xs 0 b = xs := by
  unfold slice
  rw [List.drop_zero, List.take_of_length_le (by omega)]

theorem length_slice {α : Type} (xs : List α) (a b : Nat) (hb : b < xs.length) :
    (slice xs a b).length = b + 1 - a := by
  unfold slice
  rw [List.length_take, List.length_drop]
  omega

theorem take_append_slice_append_drop {α : Type} (xs : List α) (a b : Nat) (hab : a ≤ b + 1) :
    xs.take a ++ slice xs a b ++ xs.drop (b + 1) = xs := by
  unfold slice
  have h1 : List.take (b + 1 - a) (List.drop a xs) ++ List.drop (b + 1) xs = List.drop a xs := by
    have := List.take_append_drop (b + 1 - a) (List.drop a xs)
    rw [List.drop_drop, show a + (b + 1 - a) = b + 1 from by omega] at this
    exact this
  rw [List.append_assoc, h1, List.take_append_drop]

theorem getElem?_set_of_lt {α : Type} (xs : List α) (i : Nat) (v : α) (h : i < xs.length) :
    (xs.set i v)[i]? = some v := by
  rw [List.getElem?_set, if_pos rfl, if_pos h]

/-! ## The implicit tree of node indices -/

theorem Desc.le {k j : Nat} (h : Desc k j) : k ≤ j := by
  induction h with
  | self => exact le_refl k
  | left _ ih => omega
  | right _ ih => omega

theorem Desc.of_left {k j : Nat} (h : Desc (2 * k + 1) j) : Desc k j := by
  induction h with
  | self => exact Desc.left Desc.self
  | left _ ih => exact Desc.left ih
  | right _ ih => exact Desc.right ih

theorem Desc.of_right {k j : Nat} (h : Desc (2 * k + 2) j) : Desc k j := by
  induction h with
  | self => exact Desc.right Desc.self
  | left _ ih => exact Desc.left ih
  | right _ ih => exact Desc.right ih

theorem Desc.parent {k j : Nat} (h : Desc k j) : j = k ∨ (0 < j ∧ Desc k ((j - 1) / 2)) := by
  cases h with
  | self => exact Or.inl rfl
  | @left i hi =>
    right
    refine ⟨by omega, ?_⟩
    rw [show (2 * i + 1 - 1) / 2 = i from by omega]
    exact hi
  | @right i hi =>
    right
    refine ⟨by omega, ?_⟩
    rw [show (2 * i + 2 - 1) / 2 = i from by omega]
    exact hi

/-- The subtrees below the two children of a node share no index. -/
theorem Desc.disjoint (k : Nat) : ∀ j : Nat, Desc (2 * k + 1) j → Desc (2 * k + 2) j → False := by
  intro j
  induction j using Nat.strong_induction_on with
  | _ j ih =>
    intro h₁ h₂
    rcases h₁.parent with e₁ | ⟨hp₁, d₁⟩
    · rcases h₂.parent with e₂ | ⟨_, d₂⟩
      · omega
      · have := d₂.le
        omega
    · rcases h₂.parent with e₂ | ⟨_, d₂⟩
      · have := d₁.le
        omega
      · exact ih ((j - 1) / 2) (by omega) d₁ d₂

/-! ## The node invariant -/

theorem NodeInv.congr {events : List Event} {tree tree' : List (List Event)} {k s e : Nat}
    (h : NodeInv events tree k s e) (hsame : ∀ j, Desc k j → tree'[j]? = tree[j]?) :
    NodeInv events tree' k s e := by
  induction h with
  | leaf node pos ev hev hnode =>
    exact NodeInv.leaf node pos ev hev (by rw [hsame node Desc.self]; exact hnode)
  | inner node start stop lhs rhs hlt _ _ hl hr hn hs ihl ihr =>
    refine NodeInv.inner node start stop lhs rhs hlt
      (ihl (fun j hj => hsame j hj.of_left)) (ihr (fun j hj => hsame j hj.of_right)) ?_ ?_ ?_ hs
    · rw [hsame _ (Desc.left Desc.self)]; exact hl
    · rw [hsame _ (Desc.right Desc.self)]; exact hr
    · rw [hsame _ Desc.self]; exact hn

theorem byDate_eq (a b : Event) : byDate b a = decide (b.date < a.date) := rfl

/-- Under the invariant a node that covers positions `s..e` holds the stable sort by date of
the records at those positions. -/
theorem NodeInv.value {events : List Event} {tree : List (List Event)} {k s e : Nat}
    (h : NodeInv events tree k s e) :
    s ≤ e ∧ e < events.length ∧
      tree[k]? = some (stableSortBy Event.date (slice events s e)) := by
  induction h with
  | leaf node pos ev hev hnode =>
    refine ⟨le_refl _, (List.getElem?_eq_some.mp hev).1, ?_⟩
    rw [slice_single events pos ev hev, stableSortBy_singleton]
    exact hnode
  | inner node start stop lhs rhs hlt _ _ hl hr hn _ ihl ihr =>
    obtain ⟨_, _, vl⟩ := ihl
    obtain ⟨_, hstop, vr⟩ := ihr
    refine ⟨by omega, hstop, ?_⟩
    rw [hl] at vl
    rw [hr] at vr
    rw [hn, Option.some.inj vl, Option.some.inj vr,
      stdMerge_stableSortBy Event.date byDate byDate_eq,
      slice_append events start ((start + stop) / 2) stop (by omega) (by omega)]

/-! ## Building the tree -/

/-- Main lemma on `buildTree`: on a valid interval, with the node index inside the array and the
cells below it still empty, the build succeeds, touches only the subtree of `k` and establishes
the node invariant. The witness `p` bounds the indices: it doubles at each level while the width
of the interval halves. -/
theorem buildTree_spec (events : List Event) (size : Nat) (hsize : 4 * events.length ≤ size) :
    ∀ (fuel : Nat) (tree : List (List Event)) (k s e : Nat),
      s ≤ e → e < events.length → e - s < fuel → tree.length = size → k < size →
      (∃ p, p * (e - s) < events.length ∧ k + 1 < 2 * p) →
      (∀ j, Desc k j → j < size → tree[j]? = some []) →
      ∃ tree', buildTree events fuel tree (k : Int) (s : Int) (e : Int) = .ok tree' ∧
        tree'.length = size ∧ (∀ j, ¬ Desc k j → tree'[j]? = tree[j]?) ∧
        NodeInv events tree' k s e := by
  intro fuel
  induction fuel with
  | zero => intro tree k s e _ _ hf; omega
  | succ fuel ih =>
    intro tree k s e hse he hf hlen hk hp hempty
    unfold buildTree
    by_cases hleaf : (s : Int) = (e : Int)
    · have hse' : s = e := by omega
      subst hse'
      rw [if_pos rfl]
      have hs : s < events.length := he
      refine ⟨tree.set k [events[s]], ?_, ?_, ?_, ?_⟩
      · simp only [bind, Except.bind, getAt_of_lt events s hs]
        exact setAt_natCast tree k _ (by omega)
      · rw [List.length_set]; exact hlen
      · intro j hj
        have hne : k ≠ j := fun h => hj (h ▸ Desc.self)
        rw [List.getElem?_set_ne hne]
      · refine NodeInv.leaf k s events[s] (List.getElem?_eq_getElem hs) ?_
        exact getElem?_set_of_lt tree k _ (by omega)
    · have hlt : s < e := by omega
      rw [if_neg hleaf]
      obtain ⟨p, hp₁, hp₂⟩ := hp
      have hpn : p < events.length := by
        have : p * 1 ≤ p * (e - s) := Nat.mul_le_mul_left p (by omega)
        omega
      have hmidL : (2 * p) * ((s + e) / 2 - s) < events.length := by
        have h1 : 2 * ((s + e) / 2 - s) ≤ e - s := by omega
        have h2 : p * (2 * ((s + e) / 2 - s)) ≤ p * (e - s) := Nat.mul_le_mul_left p h1
        have h3 : (2 * p) * ((s + e) / 2 - s) = p * (2 * ((s + e) / 2 - s)) := by ring
        omega
      have hmidR : (2 * p) * (e - ((s + e) / 2 + 1)) < events.length := by
        have h1 : 2 * (e - ((s + e) / 2 + 1)) ≤ e - s := by omega
        have h2 : p * (2 * (e - ((s + e) / 2 + 1))) ≤ p * (e - s) := Nat.mul_le_mul_left p h1
        have h3 : (2 * p) * (e - ((s + e) / 2 + 1)) = p * (2 * (e - ((s + e) / 2 + 1))) := by ring
        omega
      -- left child
      obtain ⟨t₁, hb₁, hlen₁, hframe₁, hinv₁⟩ :=
        ih tree (2 * k + 1) s ((s + e) / 2) (by omega) (by omega) (by omega) hlen (by omega)
          ⟨2 * p, hmidL, by omega⟩ (fun j hj hjs => hempty j hj.of_left hjs)
      -- right child
      obtain ⟨t₂, hb₂, hlen₂, hframe₂, hinv₂⟩ :=
        ih t₁ (2 * k + 2) ((s + e) / 2 + 1) e (by omega) he (by omega) hlen₁ (by omega)
          ⟨2 * p, hmidR, by omega⟩
          (fun j hj hjs => by
            rw [hframe₁ j (fun hj' => Desc.disjoint k j hj' hj)]
            exact hempty j hj.of_right hjs)
      have hk1 : ¬ Desc (2 * k + 1) k := fun h => by have := h.le; omega
      have hk2 : ¬ Desc (2 * k + 2) k := fun h => by have := h.le; omega
      have hcur : t₂[k]? = some [] := by
        rw [hframe₂ k hk2, hframe₁ k hk1]
        exact hempty k Desc.self hk
      have hinv₁' : NodeInv events t₂ (2 * k + 1) s ((s + e) / 2) :=
        hinv₁.congr (fun j hj => hframe₂ j (fun hj' => Desc.disjoint k j hj hj'))
      obtain ⟨_, _, hvl⟩ := hinv₁'.value
      obtain ⟨_, _, hvr⟩ := hinv₂.value
      have hsorted : SortedBy Event.date
          (stdMerge byDate (stableSortBy Event.date (slice events s ((s + e) / 2)))
            (stableSortBy Event.date (slice events ((s + e) / 2 + 1) e))) := by
        rw [stdMerge_stableSortBy Event.date byDate byDate_eq]
        exact stableSortBy_sorted _ _
      refine ⟨t₂.set k (stdMerge byDate (stableSortBy Event.date (slice events s ((s + e) / 2)))
            (stableSortBy Event.date (slice events ((s + e) / 2 + 1) e))), ?_, ?_, ?_, ?_⟩
      · have e1 : (2 : Int) * (k : Int) + 1 = ((2 * k + 1 : Nat) : Int) := by push_cast; ring
        have e2 : (2 : Int) * (k : Int) + 2 = ((2 * k + 2 : Nat) : Int) := by push_cast; ring
        have e3 : (((s + e) / 2 : Nat) : Int) + 1 = (((s + e) / 2 + 1 : Nat) : Int) := by
          push_cast; ring
        simp only [bind, Except.bind]
        rw [tdiv_two_natCast, e1, e2, e3, hb₁]
        simp only []
        rw [hb₂]
        simp only []
        rw [getAt_natCast t₂ _ _ hvl, getAt_natCast t₂ _ _ hvr, getAt_natCast t₂ _ _ hcur]
        simp only [List.nil_append]
        exact setAt_natCast t₂ k _ (by omega)
      · rw [List.length_set]; exact hlen₂
      · intro j hj
        have hne : k ≠ j := fun h => hj (h ▸ Desc.self)
        rw [List.getElem?_set_ne hne, hframe₂ j (fun h => hj h.of_right),
          hframe₁ j (fun h => hj h.of_left)]
      · have hset : ∀ j, k ≠ j → (t₂.set k (stdMerge byDate
            (stableSortBy Event.date (slice events s ((s + e) / 2)))
            (stableSortBy Event.date (slice events ((s + e) / 2 + 1) e))))[j]? = t₂[j]? :=
          fun j hne => List.getElem?_set_ne hne
        refine NodeInv.inner k s e _ _ hlt
          (hinv₁'.congr (fun j hj => hset j (by have := hj.le; omega)))
          (hinv₂.congr (fun j hj => hset j (by have := hj.le; omega)))
          ?_ ?_ ?_ hsorted
        · rw [hset _ (by omega)]; exact hvl
        · rw [hset _ (by omega)]; exact hvr
        · exact getElem?_set_of_lt t₂ k _ (by omega)

/-! ## Constructor and query -/

theorem build_ok (events : List Event) (fuel : Nat) (hne : events ≠ [])
    (hfuel : events.length ≤ fuel) :
    ∃ tree, SegmentTree.build fuel events = .ok { tree := tree, size := (events.length : Int) } ∧
      tree.length = 4 * events.length ∧ NodeInv events tree 0 0 (events.length - 1) := by
  have hpos : 0 < events.length := List.length_pos.mpr hne
  have hinit : ∀ j, Desc 0 j → j < 4 * events.length →
      (List.replicate (4 * events.length) ([] : List Event))[j]? = some [] := by
    intro j _ hj
    rw [List.getElem?_replicate, if_pos hj]
  obtain ⟨tree, hb, hlen, _, hinv⟩ :=
    buildTree_spec events (4 * events.length) (le_refl _) fuel
      (List.replicate (4 * events.length) []) 0 0 (events.length - 1)
      (by omega) (by omega) (by omega) (by rw [List.length_replicate]) (by omega)
      ⟨1, by omega, by omega⟩ hinit
  refine ⟨tree, ?_, hlen, hinv⟩
  unfold SegmentTree.build
  have e1 : (4 * (events.length : Int)).toNat = 4 * events.length := by omega
  have e2 : (events.length : Int) - 1 = ((events.length - 1 : Nat) : Int) := by omega
  simp only [bind, Except.bind, pure, Except.pure]
  rw [e1, e2]
  have hb' : buildTree events fuel (List.replicate (4 * events.length) []) 0 0
      ((events.length - 1 : Nat) : Int) = .ok tree := hb
  rw [hb']

/-- Main lemma on `query`: under the node invariant, and for any integers `l` and `r`, the query
below a node covering `s..e` returns the stable sort by date of the records at the positions of
`s..e` that lie in `[l, r]`. -/
theorem queryNode_spec {events : List Event} {tree : List (List Event)} {k s e : Nat}
    (h : NodeInv events tree k s e) :
    ∀ (fuel : Nat) (l r : Int), e - s < fuel →
      queryNode tree fuel (k : Int) (s : Int) (e : Int) l r =
        .ok (if r < (s : Int) ∨ l > (e : Int) then []
             else stableSortBy Event.date
               (slice events (max l (s : Int)).toNat (min r (e : Int)).toNat)) := by
  induction h with
  | leaf node pos ev hev hnode =>
    intro fuel l r hf
    obtain ⟨f, rfl⟩ : ∃ f, fuel = f + 1 := ⟨fuel - 1, by omega⟩
    unfold queryNode
    by_cases hout : r < (pos : Int) ∨ l > (pos : Int)
    · rw [if_pos hout, if_pos hout]
    · rw [if_neg hout, if_neg hout, if_pos (by omega), getAt_natCast tree node [ev] hnode]
      have e1 : (max l (pos : Int)).toNat = pos := by omega
      have e2 : (min r (pos : Int)).toNat = pos := by omega
      rw [e1, e2, slice_single events pos ev hev, stableSortBy_singleton]
  | inner node start stop lhs rhs hlt hinvl hinvr hl hr hn _ ihl ihr =>
    intro fuel l r hf
    obtain ⟨f, rfl⟩ : ∃ f, fuel = f + 1 := ⟨fuel - 1, by omega⟩
    have hval := (NodeInv.inner node start stop lhs rhs hlt hinvl hinvr hl hr hn ‹_›).value
    obtain ⟨_, hstop, hroot⟩ := hval
    unfold queryNode
    by_cases hout : r < (start : Int) ∨ l > (stop : Int)
    · rw [if_pos hout, if_pos hout]
    · rw [if_neg hout, if_neg hout]
      by_cases hin : l ≤ (start : Int) ∧ r ≥ (stop : Int)
      · rw [if_pos hin, getAt_natCast tree node _ hroot]
        have e1 : (max l (start : Int)).toNat = start := by omega
        have e2 : (min r (stop : Int)).toNat = stop := by omega
        rw [e1, e2]
      · rw [if_neg hin]
        have e1 : (2 : Int) * (node : Int) + 1 = ((2 * node + 1 : Nat) : Int) := by
          push_cast; ring
        have e2 : (2 : Int) * (node : Int) + 2 = ((2 * node + 2 : Nat) : Int) := by
          push_cast; ring
        have e3 : (((start + stop) / 2 : Nat) : Int) + 1 = (((start + stop) / 2 + 1 : Nat) : Int) := by
          push_cast; ring
        simp only [bind, Except.bind, pure, Except.pure]
        rw [tdiv_two_natCast, e1, e2, e3, ihl f l r (by omega), ihr f l r (by omega)]
        simp only []
        congr 1
        -- the two partial results are the sorted halves of the clipped range
        have hL : (if r < (start : Int) ∨ l > (((start + stop) / 2 : Nat) : Int) then []
              else stableSortBy Event.date (slice events (max l (start : Int)).toNat
                (min r (((start + stop) / 2 : Nat) : Int)).toNat)) =
            stableSortBy Event.date (slice events (max l (start : Int)).toNat
                (min r (((start + stop) / 2 : Nat) : Int)).toNat) := by
          split
          · rename_i hc
            rw [slice_of_lt events _ _ (by omega)]
            rfl
          · rfl
        have hR : (if r < (((start + stop) / 2 + 1 : Nat) : Int) ∨ l > (stop : Int) then []
              else stableSortBy Event.date (slice events
                (max l (((start + stop) / 2 + 1 : Nat) : Int)).toNat (min r (stop : Int)).toNat)) =
            stableSortBy Event.date (slice events
                (max l (((start + stop) / 2 + 1 : Nat) : Int)).toNat (min r (stop : Int)).toNat) := by
          split
          · rename_i hc
            rw [slice_of_lt events _ _ (by omega)]
            rfl
          · rfl
        rw [hL, hR, stdMerge_stableSortBy Event.date byDate byDate_eq]
        congr 1
        by_cases hc₁ : l > (((start + stop) / 2 : Nat) : Int)
        · rw [slice_of_lt events (max l (start : Int)).toNat _ (by omega), List.nil_append]
          congr 1
          omega
        · by_cases hc₂ : r ≤ (((start + stop) / 2 : Nat) : Int)
          · rw [slice_of_lt events (max l (((start + stop) / 2 + 1 : Nat) : Int)).toNat _ (by omega),
              List.append_nil]
            congr 1
            omega
          · have e4 : (min r (((start + stop) / 2 : Nat) : Int)).toNat = (start + stop) / 2 := by
              omega
            have e5 : (max l (((start + stop) / 2 + 1 : Nat) : Int)).toNat
                = (start + stop) / 2 + 1 := by omega
            rw [e4, e5]
            exact slice_append events _ _ _ (by omega) (by omega)

/-! ## Claims on the segment tree -/

theorem NodeInv.of_reached {events : List Event} {tree : List (List Event)}
    (h : NodeInv events tree 0 0 (events.length - 1)) {k s e : Nat}
    (hr : Reached events.length k s e) : NodeInv events tree k s e := by
  induction hr with
  | root => exact h
  | left _ hlt ih =>
    cases ih with
    | leaf => omega
    | inner _ _ _ lhs rhs _ hl _ _ _ _ _ => exact hl
  | right _ hlt ih =>
    cases ih with
    | leaf => omega
    | inner _ _ _ lhs rhs _ _ hr _ _ _ _ => exact hr

theorem NodeInv.sorted_root {events : List Event} {tree : List (List Event)} {k s e : Nat}
    (h : NodeInv events tree k s e) : ∃ cur, tree[k]? = some cur ∧ SortedBy Event.date cur :=
  ⟨_, h.value.2.2, stableSortBy_sorted _ _⟩

theorem slice_getElem? {α : Type} (xs : List α) (a b i : Nat) (hi : i < b + 1 - a) :
    (slice xs a b)[i]? = xs[a + i]? := by
  unfold slice
  rw [List.getElem?_take_of_lt hi, List.getElem?_drop]

/-- C1: for a non-empty collection of `n` records, building the tree and calling
`query(0, n-1)` succeeds (given at least `n` units of fuel) and returns the stable sort of the
input by ascending date: the result is ordered by date and, for every date, the records of that
date appear in their input order. -/
theorem segmentTree_query_all (events : List Event) (fuel : Nat) (hne : events ≠ [])
    (hfuel : events.length ≤ fuel) :
    ∃ t, SegmentTree.build fuel events = .ok t ∧
      t.query fuel 0 ((events.length : Int) - 1) = .ok (stableSortBy Event.date events) ∧
      SortedBy Event.date (stableSortBy Event.date events) ∧
      (stableSortBy Event.date events).Perm events ∧
      ∀ d, withKey Event.date d (stableSortBy Event.date events) = withKey Event.date d events := by
  have hpos : 0 < events.length := List.length_pos.mpr hne
  obtain ⟨tree, hb, _, hinv⟩ := build_ok events fuel hne hfuel
  refine ⟨_, hb, ?_, stableSortBy_sorted _ _, stableSortBy_perm _ _,
    fun d => withKey_stableSortBy _ d _⟩
  unfold SegmentTree.query
  have e2 : (events.length : Int) - 1 = ((events.length - 1 : Nat) : Int) := by omega
  simp only []
  rw [e2]
  have hq := queryNode_spec hinv fuel 0 ((events.length - 1 : Nat) : Int) (by omega)
  have hq' : queryNode tree fuel 0 0 ((events.length - 1 : Nat) : Int) 0
      ((events.length - 1 : Nat) : Int) = _ := hq
  rw [hq', if_neg (by omega)]
  have e3 : (max (0 : Int) ((0 : Nat) : Int)).toNat = 0 := by omega
  have e4 : (min ((events.length - 1 : Nat) : Int) ((events.length - 1 : Nat) : Int)).toNat
      = events.length - 1 := by omega
  rw [e3, e4, slice_full events _ (by omega)]

theorem segmentTree_query_all_witness :
    ∃ t, SegmentTree.build 3 scenarioEvents = .ok t ∧
      t.query 3 0 2
        = .ok [⟨"Orientation", "", 20240101, 2⟩, ⟨"Sports day", "", 20240102, 3⟩,
               ⟨"Recital", "", 20240103, 1⟩] ∧
      SortedBy Event.date (stableSortBy Event.date scenarioEvents) ∧
      (stableSortBy Event.date scenarioEvents).Perm scenarioEvents ∧
      ∀ d, withKey Event.date d (stableSortBy Event.date scenarioEvents)
        = withKey Event.date d scenarioEvents :=
  segmentTree_query_all scenarioEvents 3 (by decide) (by decide)

/-- C2: for positions `l ≤ r` inside a collection of `n` records, `query(l, r)` on the tree built
from the collection succeeds (given at least `n` units of fuel) and returns the stable sort by
ascending date of the records at the original positions `l..r`. -/
theorem segmentTree_query_range (events : List Event) (fuel : Nat) (l r : Nat)
    (hfuel : events.length ≤ fuel) (hlr : l ≤ r) (hr : r < events.length) :
    ∃ t, SegmentTree.build fuel events = .ok t ∧
      t.query fuel (l : Int) (r : Int) = .ok (stableSortBy Event.date (slice events l r)) ∧
      (slice events l r).length = r + 1 - l ∧
      (∀ i, i < r + 1 - l → (slice events l r)[i]? = events[l + i]?) ∧
      SortedBy Event.date (stableSortBy Event.date (slice events l r)) ∧
      ∀ d, withKey Event.date d (stableSortBy Event.date (slice events l r))
        = withKey Event.date d (slice events l r) := by
  have hne : events ≠ [] := by
    intro h
    rw [h] at hr
    exact absurd hr (by simp)
  obtain ⟨tree, hb, _, hinv⟩ := build_ok events fuel hne hfuel
  refine ⟨_, hb, ?_, length_slice events l r hr, fun i hi => slice_getElem? events l r i hi,
    stableSortBy_sorted _ _, fun d => withKey_stableSortBy _ d _⟩
  unfold SegmentTree.query
  have e2 : (events.length : Int) - 1 = ((events.length - 1 : Nat) : Int) := by omega
  simp only []
  rw [e2]
  have hq := queryNode_spec hinv fuel (l : Int) (r : Int) (by omega)
  have hq' : queryNode tree fuel 0 0 ((events.length - 1 : Nat) : Int) (l : Int) (r : Int) = _ := hq
  rw [hq', if_neg (by omega)]
  have e3 : (max (l : Int) ((0 : Nat) : Int)).toNat = l := by omega
  have e4 : (min (r : Int) ((events.length - 1 : Nat) : Int)).toNat = r := by omega
  rw [e3, e4]

theorem segmentTree_query_range_witness :
    ∃ t, SegmentTree.build 3 scenarioEvents = .ok t ∧
      t.query 3 1 2
        = .ok [⟨"Orientation", "", 20240101, 2⟩, ⟨"Sports day", "", 20240102, 3⟩] ∧
      (slice scenarioEvents 1 2).length = 2 ∧
      (∀ i, i < 2 → (slice scenarioEvents 1 2)[i]? = scenarioEvents[1 + i]?) ∧
      SortedBy Event.date (stableSortBy Event.date (slice scenarioEvents 1 2)) ∧
      ∀ d, withKey Event.date d (stableSortBy Event.date (slice scenarioEvents 1 2))
        = withKey Event.date d (slice scenarioEvents 1 2) :=
  segmentTree_query_range scenarioEvents 3 1 2 (by decide) (by decide) (by decide)

/-- C9: after building from a non-empty collection, every node reached by the build holds a
list ordered by date; the leaf for a position holds exactly the record of that position; an
internal node holds the `std::merge` by date of its two children (records of equal date from the
left child first); and the root holds the whole collection stably sorted by date. -/
theorem buildTree_merge_invariant (events : List Event) (fuel : Nat) (hne : events ≠ [])
    (hfuel : events.length ≤ fuel) :
    ∃ t, SegmentTree.build fuel events = .ok t ∧
      t.tree[0]? = some (stableSortBy Event.date events) ∧
      ∀ node start stop, Reached events.length node start stop →
        ∃ cur, t.tree[node]? = some cur ∧ SortedBy Event.date cur ∧
          (start = stop → ∃ ev, events[start]? = some ev ∧ cur = [ev]) ∧
          (start < stop → ∃ lhs rhs, t.tree[2 * node + 1]? = some lhs ∧
            t.tree[2 * node + 2]? = some rhs ∧ cur = stdMerge byDate lhs rhs ∧
            ∀ d, withKey Event.date d cur
              = withKey Event.date d lhs ++ withKey Event.date d rhs) := by
  have hpos : 0 < events.length := List.length_pos.mpr hne
  obtain ⟨tree, hb, _, hinv⟩ := build_ok events fuel hne hfuel
  refine ⟨_, hb, ?_, ?_⟩
  · have := hinv.value.2.2
    rw [slice_full events _ (by omega)] at this
    exact this
  · intro node start stop hreach
    have hn := hinv.of_reached hreach
    cases hn with
    | leaf _ _ ev hev hnode =>
      refine ⟨[ev], hnode, ?_, fun _ => ⟨ev, hev, rfl⟩, fun h => absurd h (lt_irrefl _)⟩
      unfold SortedBy
      exact List.pairwise_singleton _ _
    | inner _ _ _ lhs rhs hlt hinvl hinvr hl hr hcur hs =>
      refine ⟨_, hcur, hs, fun h => by omega, fun _ => ⟨lhs, rhs, hl, hr, rfl, ?_⟩⟩
      intro d
      obtain ⟨cl, hcl, hsl⟩ := hinvl.sorted_root
      have : cl = lhs := Option.some.inj (hcl.symm.trans hl)
      subst this
      exact withKey_stdMerge_left Event.date byDate byDate_eq d cl rhs hsl

theorem buildTree_merge_invariant_witness :
    ∃ t, SegmentTree.build 3 scenarioEvents = .ok t ∧
      t.tree[0]? = some (stableSortBy Event.date scenarioEvents) ∧
      ∀ node start stop, Reached scenarioEvents.length node start stop →
        ∃ cur, t.tree[node]? = some cur ∧ SortedBy Event.date cur ∧
          (start = stop → ∃ ev, scenarioEvents[start]? = some ev ∧ cur = [ev]) ∧
          (start < stop → ∃ lhs rhs, t.tree[2 * node + 1]? = some lhs ∧
            t.tree[2 * node + 2]? = some rhs ∧ cur = stdMerge byDate lhs rhs ∧
            ∀ d, withKey Event.date d cur
              = withKey Event.date d lhs ++ withKey Event.date d rhs) :=
  buildTree_merge_invariant scenarioEvents 3 (by decide) (by decide)

/-- C10: the constructor run on an empty collection is not guarded: it calls
`buildTree(events, 0, 0, -1)`, whose first recursive call is the leaf case on `[0, 0]` and
reads `events[0]` and writes `tree[1]` in arrays of size `0`. Whatever the fuel (two units are
enough to get there), the run ends in an out-of-bounds access. -/
theorem build_empty_outOfBounds (fuel : Nat) :
    SegmentTree.build (fuel + 2) [] = .error .outOfBounds := by
  unfold SegmentTree.build
  simp only [bind, Except.bind]
  unfold buildTree
  simp only [bind, Except.bind]
  unfold buildTree
  rfl

/-! ## The loops of `merge` -/

theorem set_length_append_cons {α : Type} (front : List α) (c v : α) (back : List α) (n : Nat)
    (hn : n = front.length) : (front ++ c :: back).set n v = front ++ v :: back := by
  subst hn
  rw [List.set_append, if_neg (lt_irrefl _), Nat.sub_self, List.set_cons_zero]

theorem length_bufOf (acc : List Event) (cap : Nat) (h : acc.length ≤ cap) :
    (bufOf acc cap).length = cap := by
  unfold bufOf
  rw [List.length_append, List.length_map, List.length_replicate]
  omega

theorem setAt_bufOf (acc : List Event) (cap : Nat) (x : Event) (h : acc.length < cap) :
    setAt (bufOf acc cap) (acc.length : Int) (some x) = .ok (bufOf (acc ++ [x]) cap) := by
  rw [setAt_natCast _ _ _ (by rw [length_bufOf acc cap (by omega)]; exact h)]
  congr 1
  unfold bufOf
  rw [show cap - acc.length = (cap - (acc ++ [x]).length) + 1 from by
        rw [List.length_append, List.length_singleton]; omega,
    List.replicate_succ,
    set_length_append_cons _ _ _ _ _ (by rw [List.length_map]),
    List.map_append, List.append_assoc]
  rfl

theorem getAt_bufOf (acc : List Event) (cap p : Nat) (h : p < acc.length) :
    getAt (bufOf acc cap) (p : Int) = .ok (some acc[p]) := by
  apply getAt_natCast
  unfold bufOf
  rw [List.getElem?_append_left (by rw [List.length_map]; exact h), List.getElem?_map,
    List.getElem?_eq_getElem h]
  rfl

theorem takesRight_eq (y x : Event) : takesRight y x = decide (y.priority ≤ x.priority) := by
  unfold takesRight
  by_cases h : x.priority < y.priority
  · simp [h]
  · simp [h]; omega

/-- First loop: from cursors `i`, `j` and written prefix `acc`, the loop stops with one of the two
runs exhausted, and what it has written followed by the two remainders is `acc` followed by the
merge of the two runs. -/
theorem mergeLoop_spec (events : List Event) (mid right cap : Nat) (hright : right < events.length)
    (hmid : mid ≤ right) :
    ∀ (fuel i j : Nat) (acc : List Event),
      i ≤ mid + 1 → j ≤ right + 1 →
      acc.length + (mid + 1 - i) + (right + 1 - j) ≤ cap →
      (mid + 1 - i) + (right + 1 - j) < fuel →
      ∃ (i' j' : Nat) (acc' : List Event),
        mergeLoop events (mid : Int) (right : Int) fuel
            { i := (i : Int), j := (j : Int), k := (acc.length : Int), temp := bufOf acc cap }
          = .ok { i := (i' : Int), j := (j' : Int), k := (acc'.length : Int),
                  temp := bufOf acc' cap } ∧
        i' ≤ mid + 1 ∧ j' ≤ right + 1 ∧
        acc'.length + (mid + 1 - i') + (right + 1 - j') ≤ cap ∧
        acc' ++ slice events i' mid ++ slice events j' right
          = acc ++ stdMerge takesRight (slice events i mid) (slice events j right) := by
  intro fuel
  induction fuel with
  | zero => intro i j acc _ _ _ hf; omega
  | succ fuel ih =>
    intro i j acc hi hj hcap hf
    unfold mergeLoop
    by_cases hc : (i : Int) ≤ (mid : Int) ∧ (j : Int) ≤ (right : Int)
    · have hi' : i ≤ mid := by omega
      have hj' : j ≤ right := by omega
      have hil : i < events.length := by omega
      have hjl : j < events.length := by omega
      simp only [if_pos hc, bind, Except.bind, getAt_of_lt events i hil, getAt_of_lt events j hjl]
      rw [slice_cons events i mid hi' hil, slice_cons events j right hj' hjl, stdMerge_cons_cons]
      by_cases hp : events[i].priority < events[j].priority
      · simp only [if_pos hp, bind, Except.bind, setAt_bufOf acc cap events[i] (by omega)]
        obtain ⟨i', j', acc', hrun, h1, h2, h3, h4⟩ :=
          ih (i + 1) j (acc ++ [events[i]]) (by omega) hj
            (by rw [List.length_append, List.length_singleton]; omega) (by omega)
        rw [List.length_append, List.length_singleton] at hrun
        push_cast at hrun
        refine ⟨i', j', acc', hrun, h1, h2, h3, ?_⟩
        rw [h4, slice_cons events j right hj' hjl]
        have htr : takesRight events[j] events[i] = false := by
          rw [takesRight_eq]; simp; omega
        rw [htr]
        simp
      · simp only [if_neg hp, bind, Except.bind, setAt_bufOf acc cap events[j] (by omega)]
        obtain ⟨i', j', acc', hrun, h1, h2, h3, h4⟩ :=
          ih i (j + 1) (acc ++ [events[j]]) hi (by omega)
            (by rw [List.length_append, List.length_singleton]; omega) (by omega)
        rw [List.length_append, List.length_singleton] at hrun
        push_cast at hrun
        refine ⟨i', j', acc', hrun, h1, h2, h3, ?_⟩
        rw [h4, slice_cons events i mid hi' hil]
        have htr : takesRight events[j] events[i] = true := by
          rw [takesRight_eq]; simp; omega
        rw [htr]
        simp
    · rw [if_neg hc]
      refine ⟨i, j, acc, rfl, hi, hj, hcap, ?_⟩
      rw [List.append_assoc]
      congr 1
      by_cases hi' : i ≤ mid
      · have hj' : right < j := by omega
        rw [slice_of_lt events j right hj', stdMerge_nil_right, List.append_nil]
      · rw [slice_of_lt events i mid (by omega), stdMerge_nil_left, List.nil_append]

/-- Second loop: copies what is left of the left run. -/
theorem copyLeft_spec (events : List Event) (mid cap : Nat) (j : Int) :
    ∀ (fuel i : Nat) (acc : List Event),
      i ≤ mid + 1 → (i ≤ mid → mid < events.length) →
      acc.length + (mid + 1 - i) ≤ cap → mid + 1 - i < fuel →
      copyLeft events (mid : Int) fuel
          { i := (i : Int), j := j, k := (acc.length : Int), temp := bufOf acc cap }
        = .ok { i := ((mid + 1 : Nat) : Int), j := j,
                k := ((acc ++ slice events i mid).length : Int),
                temp := bufOf (acc ++ slice events i mid) cap } := by
  intro fuel
  induction fuel with
  | zero => intro i acc _ _ _ hf; omega
  | succ fuel ih =>
    intro i acc hi hlen hcap hf
    unfold copyLeft
    by_cases hc : (i : Int) ≤ (mid : Int)
    · have hi' : i ≤ mid := by omega
      have hil : i < events.length := by have := hlen hi'; omega
      simp only [if_pos hc, bind, Except.bind, getAt_of_lt events i hil,
        setAt_bufOf acc cap events[i] (by omega)]
      have hrun := ih (i + 1) (acc ++ [events[i]]) (by omega) (fun _ => hlen hi')
        (by rw [List.length_append, List.length_singleton]; omega) (by omega)
      rw [List.length_append acc, List.length_singleton] at hrun
      push_cast at hrun
      rw [hrun, slice_cons events i mid hi' hil]
      simp
    · rw [if_neg hc]
      have hi' : i = mid + 1 := by omega
      subst hi'
      rw [slice_of_lt events (mid + 1) mid (by omega), List.append_nil]
      rfl

/-- Third loop: copies what is left of the right run. -/
theorem copyRight_spec (events : List Event) (right cap : Nat) (i : Int) :
    ∀ (fuel j : Nat) (acc : List Event),
      j ≤ right + 1 → (j ≤ right → right < events.length) →
      acc.length + (right + 1 - j) ≤ cap → right + 1 - j < fuel →
      copyRight events (right : Int) fuel
          { i := i, j := (j : Int), k := (acc.length : Int), temp := bufOf acc cap }
        = .ok { i := i, j := ((right + 1 : Nat) : Int),
                k := ((acc ++ slice events j right).length : Int),
                temp := bufOf (acc ++ slice events j right) cap } := by
  intro fuel
  induction fuel with
  | zero => intro j acc _ _ _ hf; omega
  | succ fuel ih =>
    intro j acc hj hlen hcap hf
    unfold copyRight
    by_cases hc : (j : Int) ≤ (right : Int)
    · have hj' : j ≤ right := by omega
      have hjl : j < events.length := by have := hlen hj'; omega
      simp only [if_pos hc, bind, Except.bind, getAt_of_lt events j hjl,
        setAt_bufOf acc cap events[j] (by omega)]
      have hrun := ih (j + 1) (acc ++ [events[j]]) (by omega) (fun _ => hlen hj')
        (by rw [List.length_append, List.length_singleton]; omega) (by omega)
      rw [List.length_append acc, List.length_singleton] at hrun
      push_cast at hrun
      rw [hrun, slice_cons events j right hj' hjl]
      simp
    · rw [if_neg hc]
      have hj' : j = right + 1 := by omega
      subst hj'
      rw [slice_of_lt events (right + 1) right (by omega), List.append_nil]
      rfl

/-- Last loop: the cells `left .. left + k - 1` receive the written prefix of the buffer. -/
theorem copyBack_spec (acc : List Event) (cap left : Nat) (front back : List Event)
    (hfront : front.length = left) :
    ∀ (fuel p : Nat) (old : List Event),
      p ≤ acc.length → old.length = acc.length - p → acc.length - p < fuel →
      copyBack (bufOf acc cap) (left : Int) (acc.length : Int) fuel (p : Int)
          (front ++ acc.take p ++ old ++ back)
        = .ok (front ++ acc ++ back) := by
  intro fuel
  induction fuel with
  | zero => intro p old _ _ hf; omega
  | succ fuel ih =>
    intro p old hp hold hf
    unfold copyBack
    by_cases hc : (p : Int) < (acc.length : Int)
    · have hp' : p < acc.length := by omega
      simp only [if_pos hc, bind, Except.bind, getAt_bufOf acc cap p hp']
      cases old with
      | nil => simp only [List.length_nil] at hold; omega
      | cons o old' =>
        have hidx : (left : Int) + (p : Int) = ((left + p : Nat) : Int) := by push_cast; rfl
        have hlenfp : (front ++ acc.take p).length = left + p := by
          rw [List.length_append, List.length_take, hfront]; omega
        have hset : setAt (front ++ acc.take p ++ o :: old' ++ back) ((left + p : Nat) : Int) acc[p]
            = .ok (front ++ acc.take (p + 1) ++ old' ++ back) := by
          rw [setAt_natCast _ _ _ (by
            simp only [List.length_append, List.length_cons, hlenfp]; omega)]
          congr 1
          have ht : acc.take (p + 1) = acc.take p ++ [acc[p]] := by
            rw [List.take_succ, List.getElem?_eq_getElem hp']
            rfl
          rw [List.append_assoc (front ++ acc.take p), List.cons_append,
            set_length_append_cons (front ++ acc.take p) o acc[p] (old' ++ back) (left + p)
              hlenfp.symm, ht]
          simp only [List.append_assoc, List.cons_append, List.nil_append]
        rw [hidx, hset]
        simp only []
        have hnext : (p : Int) + 1 = ((p + 1 : Nat) : Int) := by push_cast; rfl
        rw [hnext]
        exact ih (p + 1) old' (by omega) (by simp only [List.length_cons] at hold; omega) (by omega)
    · rw [if_neg hc]
      have hp' : p = acc.length := by omega
      have hold' : old = [] := List.length_eq_zero.mp (by omega)
      subst hold'
      rw [hp', List.take_length, List.append_nil]
      rfl

/-! ## `merge` and `mergeSortByPriority` -/

theorem slice_middle {α : Type} (front mid back : List α) (a b : Nat) (ha : a = front.length)
    (hb : b + 1 = a + mid.length) : slice (front ++ mid ++ back) a b = mid := by
  unfold slice
  rw [List.append_assoc, List.drop_left' ha.symm, List.take_left' (by omega)]

theorem bufOf_nil (cap : Nat) : bufOf [] cap = List.replicate cap none := by
  unfold bufOf
  simp

/-- Function `merge` on a vector cut as `front ++ X ++ Y ++ back`, with `X` the cells
`left..mid` and `Y` the cells `mid+1..right`: the two runs are replaced by their merge, in which
the right element goes first on equal priorities. -/
theorem merge_spec (fuel : Nat) (front X Y back : List Event) (left mid right : Nat)
    (hleft : left = front.length) (hmid : mid + 1 = left + X.length) (hX : 0 < X.length)
    (hright : right + 1 = mid + 1 + Y.length) (hfuel : X.length + Y.length < fuel) :
    merge fuel (front ++ X ++ Y ++ back) (left : Int) (mid : Int) (right : Int)
      = .ok (front ++ stdMerge takesRight X Y ++ back) := by
  have hlen : (front ++ X ++ Y ++ back).length
      = front.length + X.length + Y.length + back.length := by
    simp only [List.length_append]
  have hsX : slice (front ++ X ++ Y ++ back) left mid = X := by
    rw [List.append_assoc (front ++ X)]
    exact slice_middle front X (Y ++ back) left mid hleft hmid
  have hsY : slice (front ++ X ++ Y ++ back) (mid + 1) right = Y :=
    slice_middle (front ++ X) Y back (mid + 1) right
      (by rw [List.length_append]; omega) hright
  have hrl : right < (front ++ X ++ Y ++ back).length := by rw [hlen]; omega
  have hml : mid < (front ++ X ++ Y ++ back).length := by rw [hlen]; omega
  obtain ⟨i', j', acc', hrun, h1, h2, h3, h4⟩ :=
    mergeLoop_spec (front ++ X ++ Y ++ back) mid right (X.length + Y.length) hrl (by omega)
      fuel left (mid + 1) [] (by omega) (by omega)
      (by simp only [List.length_nil]; omega) (by omega)
  rw [hsX, hsY, List.nil_append] at h4
  have hcl := copyLeft_spec (front ++ X ++ Y ++ back) mid (X.length + Y.length) (j' : Int)
    fuel i' acc' h1 (fun _ => hml) (by omega) (by omega)
  have hlsl : (slice (front ++ X ++ Y ++ back) i' mid).length = mid + 1 - i' :=
    length_slice _ _ _ hml
  have hcr := copyRight_spec (front ++ X ++ Y ++ back) right (X.length + Y.length)
    ((mid + 1 : Nat) : Int) fuel j' (acc' ++ slice (front ++ X ++ Y ++ back) i' mid) h2
    (fun _ => hrl) (by rw [List.length_append, hlsl]; omega) (by omega)
  rw [h4] at hcr
  have hMlen : (stdMerge takesRight X Y).length = X.length + Y.length := by
    rw [(stdMerge_perm takesRight X Y).length_eq, List.length_append]
  have hcb := copyBack_spec (stdMerge takesRight X Y) (X.length + Y.length) left front back
    hleft.symm fuel 0 (X ++ Y) (Nat.zero_le _)
    (by rw [List.length_append, hMlen]; omega) (by rw [hMlen]; omega)
  rw [List.take_zero, List.append_nil, ← List.append_assoc front X Y] at hcb
  unfold merge
  rw [if_neg (by omega)]
  have hcap : ((right : Int) - (left : Int) + 1).toNat = X.length + Y.length := by omega
  have hinit : ((mid : Int) + 1) = ((mid + 1 : Nat) : Int) := by push_cast; rfl
  simp only [bind, Except.bind]
  rw [hcap, ← bufOf_nil, hinit]
  have hrun' : mergeLoop (front ++ X ++ Y ++ back) (mid : Int) (right : Int) fuel
      { i := (left : Int), j := ((mid + 1 : Nat) : Int), k := 0,
        temp := bufOf [] (X.length + Y.length) }
      = .ok { i := (i' : Int), j := (j' : Int), k := (acc'.length : Int),
              temp := bufOf acc' (X.length + Y.length) } := hrun
  rw [hrun']
  simp only []
  rw [hcl]
  simp only []
  rw [hcr]
  simp only []
  exact hcb

theorem stdMerge_takesRight_sorted (X Y : List Event) :
    stdMerge takesRight (stableSortBy Event.priority X.reverse)
        (stableSortBy Event.priority Y.reverse)
      = stableSortBy Event.priority (X ++ Y).reverse := by
  apply eq_stableSortBy
  · apply stdMerge_sorted Event.priority takesRight _ _ _ _
      (stableSortBy_sorted _ _) (stableSortBy_sorted _ _)
    · intro a b h
      rw [takesRight_eq] at h
      simpa using h
    · intro a b h
      rw [takesRight_eq] at h
      have : ¬ b.priority ≤ a.priority := by simpa using h
      omega
  · intro d
    rw [withKey_stdMerge_right Event.priority takesRight (fun a b => takesRight_eq b a) d _ _
        (stableSortBy_sorted _ _),
      withKey_stableSortBy, withKey_stableSortBy, List.reverse_append, withKey_append]

/-- Function `mergeSortByPriority` on a vector cut as `front ++ X ++ back`, with `X` the
non-empty run of cells `left..right`: the run is replaced by the stable sort by priority of its
reversal, the other cells are untouched. -/
theorem mergeSort_spec :
    ∀ (fuel : Nat) (front X back : List Event) (left right : Nat),
      left = front.length → right + 1 = left + X.length → 0 < X.length →
      X.length + 2 ≤ fuel →
      mergeSortByPriority fuel (front ++ X ++ back) (left : Int) (right : Int)
        = .ok (front ++ stableSortBy Event.priority X.reverse ++ back) := by
  intro fuel
  induction fuel with
  | zero => intro front X back left right _ _ _ hf; omega
  | succ fuel ih =>
    intro front X back left right hleft hright hX hf
    unfold mergeSortByPriority
    by_cases hc : (left : Int) ≥ (right : Int)
    · rw [if_pos hc]
      have h1 : X.length = 1 := by omega
      obtain ⟨x, rfl⟩ := List.length_eq_one.mp h1
      rfl
    · rw [if_neg hc]
      have hlt : left < right := by omega
      have hm1 : 0 < (left + right) / 2 + 1 - left := by omega
      have hm2 : (left + right) / 2 + 1 - left < X.length := by omega
      have hsplit : X = X.take ((left + right) / 2 + 1 - left)
          ++ X.drop ((left + right) / 2 + 1 - left) := (List.take_append_drop _ _).symm
      have hl1 : (X.take ((left + right) / 2 + 1 - left)).length
          = (left + right) / 2 + 1 - left := by
        rw [List.length_take]; omega
      have hl2 : (X.drop ((left + right) / 2 + 1 - left)).length
          = X.length - ((left + right) / 2 + 1 - left) := List.length_drop _ _
      generalize X.take ((left + right) / 2 + 1 - left) = X₁ at hsplit hl1
      generalize X.drop ((left + right) / 2 + 1 - left) = X₂ at hsplit hl2
      subst hsplit
      rw [List.length_append] at hright hf hm2
      have hs1 : (stableSortBy Event.priority X₁.reverse).length = X₁.length := by
        rw [(stableSortBy_perm _ _).length_eq, List.length_reverse]
      have hs2 : (stableSortBy Event.priority X₂.reverse).length = X₂.length := by
        rw [(stableSortBy_perm _ _).length_eq, List.length_reverse]
      have r1 := ih front X₁ (X₂ ++ back) left ((left + right) / 2) hleft (by omega) (by omega)
        (by omega)
      have r2 := ih (front ++ stableSortBy Event.priority X₁.reverse) X₂ back
        ((left + right) / 2 + 1) right (by rw [List.length_append, hs1]; omega) (by omega)
        (by omega) (by omega)
      have r3 := merge_spec fuel front (stableSortBy Event.priority X₁.reverse)
        (stableSortBy Event.priority X₂.reverse) back left ((left + right) / 2) right hleft
        (by rw [hs1]; omega) (by rw [hs1]; omega) (by rw [hs2]; omega) (by rw [hs1, hs2]; omega)
      have e1 : front ++ (X₁ ++ X₂) ++ back = front ++ X₁ ++ (X₂ ++ back) := by
        simp only [List.append_assoc]
      have e2 : front ++ stableSortBy Event.priority X₁.reverse ++ (X₂ ++ back)
          = front ++ stableSortBy Event.priority X₁.reverse ++ X₂ ++ back := by
        simp only [List.append_assoc]
      have e3 : (((left + right) / 2 : Nat) : Int) + 1 = (((left + right) / 2 + 1 : Nat) : Int) := by
        push_cast; rfl
      simp only [bind, Except.bind]
      rw [tdiv_two_natCast, e1, r1]
      simp only []
      rw [e2, e3, r2]
      simp only []
      rw [r3, stdMerge_takesRight_sorted]

/-! ## Claims on the merge sort -/

/-- C3: on the records `(A,2), (B,1), (C,2)` the call `mergeSortByPriority(events, 0, 2)` yields
`(B,1), (C,2), (A,2)`: the two records of priority `2` come out in the reverse of their order
before the sort, whereas a stable sort yields `(B,1), (A,2), (C,2)`. -/
theorem mergeSortByPriority_reverses_ties (fuel : Nat) :
    mergeSortByPriority (fuel + 5) tieEvents 0 2
        = .ok [⟨"B", "", 20240101, 1⟩, ⟨"C", "", 20240101, 2⟩, ⟨"A", "", 20240101, 2⟩]
      ∧ stableSortBy Event.priority tieEvents
        = [⟨"B", "", 20240101, 1⟩, ⟨"A", "", 20240101, 2⟩, ⟨"C", "", 20240101, 2⟩] := by
  refine ⟨?_, by decide⟩
  have h := mergeSort_spec (fuel + 5) [] tieEvents [] 0 2 rfl rfl (by decide)
    (by simp only [tieEvents, List.length_cons, List.length_nil]; omega)
  simp only [List.nil_append, List.append_nil] at h
  have hs : stableSortBy Event.priority tieEvents.reverse
      = [⟨"B", "", 20240101, 1⟩, ⟨"C", "", 20240101, 2⟩, ⟨"A", "", 20240101, 2⟩] := by decide
  rw [hs] at h
  exact h

/-- C4: on two distinct records of equal priority, sorting once swaps them and sorting the result
again swaps them back, so that sorting twice does not give what sorting once gives. -/
theorem mergeSortByPriority_not_idempotent (fuel : Nat) :
    mergeSortByPriority (fuel + 4) twinEvents 0 1 = .ok twinEvents.reverse
      ∧ mergeSortByPriority (fuel + 4) twinEvents.reverse 0 1 = .ok twinEvents
      ∧ twinEvents.reverse ≠ twinEvents := by
  refine ⟨?_, ?_, by decide⟩
  · have h := mergeSort_spec (fuel + 4) [] twinEvents [] 0 1 rfl rfl (by decide)
      (by simp only [twinEvents, List.length_cons, List.length_nil]; omega)
    simp only [List.nil_append, List.append_nil] at h
    have hs : stableSortBy Event.priority twinEvents.reverse = twinEvents.reverse := by decide
    rw [hs] at h
    exact h
  · have h := mergeSort_spec (fuel + 4) [] twinEvents.reverse [] 0 1 rfl rfl (by decide)
      (by simp only [twinEvents, List.reverse_cons, List.reverse_nil, List.nil_append,
            List.cons_append, List.length_cons, List.length_nil]; omega)
    simp only [List.nil_append, List.append_nil] at h
    have hs : stableSortBy Event.priority twinEvents.reverse.reverse = twinEvents := by decide
    rw [hs] at h
    exact h

/-- C5: for a collection of `n ≥ 1` records, `mergeSortByPriority(events, 0, n-1)` succeeds
(given at least `n + 2` units of fuel) and leaves a permutation of the original collection that
is ordered by non-decreasing priority. -/
theorem mergeSortByPriority_sorted_perm (events : List Event) (fuel : Nat) (hne : events ≠ [])
    (hfuel : events.length + 2 ≤ fuel) :
    ∃ out, mergeSortByPriority fuel events 0 ((events.length : Int) - 1) = .ok out ∧
      out.Perm events ∧ SortedBy Event.priority out := by
  have hpos : 0 < events.length := List.length_pos.mpr hne
  have h := mergeSort_spec fuel [] events [] 0 (events.length - 1) rfl (by omega) hpos hfuel
  simp only [List.nil_append, List.append_nil] at h
  have e : (events.length : Int) - 1 = ((events.length - 1 : Nat) : Int) := by omega
  refine ⟨_, ?_, (stableSortBy_perm _ _).trans (List.reverse_perm events),
    stableSortBy_sorted _ _⟩
  rw [e]
  exact h

theorem mergeSortByPriority_sorted_perm_witness :
    ∃ out, mergeSortByPriority 5 tieEvents 0 2 = .ok out ∧
      out.Perm tieEvents ∧ SortedBy Event.priority out :=
  mergeSortByPriority_sorted_perm tieEvents 5 (by decide) (by decide)

/-! ## Binary search -/

theorem getAt_int {α : Type} (xs : List α) (i : Int) (h₀ : 0 ≤ i) (h₁ : i < xs.length) :
    ∃ x, getAt xs i = .ok x ∧ xs[i.toNat]? = some x := by
  have hlt : i.toNat < xs.length := by omega
  refine ⟨xs[i.toNat], ?_, List.getElem?_eq_getElem hlt⟩
  unfold getAt
  rw [if_pos h₀, List.getElem?_eq_getElem hlt]

theorem SortedBy.getElem?_le {α : Type} {key : α → Int} {l : List α} (h : SortedBy key l)
    {a b : Nat} {x y : α} (hab : a ≤ b) (hx : l[a]? = some x) (hy : l[b]? = some y) :
    key x ≤ key y := by
  obtain ⟨ha, rfl⟩ := List.getElem?_eq_some.mp hx
  obtain ⟨hb, rfl⟩ := List.getElem?_eq_some.mp hy
  rcases Nat.lt_or_eq_of_le hab with hlt | heq
  · exact (List.pairwise_iff_getElem.mp h) a b ha hb hlt
  · subst heq
    exact le_refl _

/-- The loop of `binarySearch` on a window inside the vector terminates; an index it returns
lies in the window and holds a record of the searched date; and on a vector sorted by date it
returns an index whenever the window holds a record of that date. -/
theorem binarySearchLoop_spec (events : List Event) (date : Int) :
    ∀ (fuel : Nat) (low high : Int),
      0 ≤ low → high < (events.length : Int) → (high + 1 - low).toNat < fuel →
      ∃ res, binarySearchLoop events date fuel low high = .ok res ∧
        (∀ i, res = some i →
          low ≤ i ∧ i ≤ high ∧ ∃ ev, events[i.toNat]? = some ev ∧ ev.date = date) ∧
        (SortedBy Event.date events →
          (∃ (t : Nat) (ev : Event), low ≤ (t : Int) ∧ (t : Int) ≤ high ∧
            events[t]? = some ev ∧ ev.date = date) →
          res ≠ none) := by
  intro fuel
  induction fuel with
  | zero => intro low high _ _ hf; omega
  | succ fuel ih =>
    intro low high hlow hhigh hf
    unfold binarySearchLoop
    by_cases hc : low ≤ high
    · have hmid : (low + high).tdiv 2 = (low + high) / 2 :=
        Int.tdiv_eq_ediv (by omega) (by omega)
      rw [if_pos hc]
      simp only [hmid, bind, Except.bind, pure, Except.pure]
      obtain ⟨ev, hget, hev⟩ := getAt_int events ((low + high) / 2) (by omega) (by omega)
      rw [hget]
      simp only []
      by_cases hd : ev.date = date
      · rw [if_pos hd]
        refine ⟨some ((low + high) / 2), rfl, ?_, fun _ _ => by simp⟩
        intro i hi
        have : (low + high) / 2 = i := Option.some.inj hi
        subst this
        exact ⟨by omega, by omega, ev, hev, hd⟩
      · rw [if_neg hd]
        by_cases hlt : ev.date < date
        · rw [if_pos hlt]
          obtain ⟨res, hres, hsound, hfound⟩ :=
            ih ((low + high) / 2 + 1) high (by omega) hhigh (by omega)
          refine ⟨res, hres, ?_, ?_⟩
          · intro i hi
            obtain ⟨h1, h2, h3⟩ := hsound i hi
            exact ⟨by omega, h2, h3⟩
          · intro hs ⟨t, et, ht1, ht2, het, hdt⟩
            apply hfound hs
            refine ⟨t, et, ?_, ht2, het, hdt⟩
            by_contra hcon
            have hle : t ≤ ((low + high) / 2).toNat := by omega
            have := hs.getElem?_le hle het hev
            omega
        · rw [if_neg hlt]
          obtain ⟨res, hres, hsound, hfound⟩ :=
            ih low ((low + high) / 2 - 1) hlow (by omega) (by omega)
          refine ⟨res, hres, ?_, ?_⟩
          · intro i hi
            obtain ⟨h1, h2, h3⟩ := hsound i hi
            exact ⟨h1, by omega, h3⟩
          · intro hs ⟨t, et, ht1, ht2, het, hdt⟩
            apply hfound hs
            refine ⟨t, et, ht1, ?_, het, hdt⟩
            by_contra hcon
            have hle : ((low + high) / 2).toNat ≤ t := by omega
            have := hs.getElem?_le hle hev het
            omega
    · rw [if_neg hc]
      refine ⟨none, rfl, fun i hi => by simp at hi, ?_⟩
      intro _ ⟨t, _, ht1, ht2, _, _⟩
      omega

/-- C6: on a collection sorted ascending by date (and with more than `n` units of fuel),
`binarySearch` returns the position of the record carrying the target date when exactly one
record carries it, and returns the empty result when no record carries it. -/
theorem binarySearch_exact (events : List Event) (date : Int) (fuel : Nat)
    (hsorted : SortedBy Event.date events) (hfuel : events.length < fuel) :
    (∀ (i : Nat) (hi : i < events.length), events[i].date = date →
        (∀ (j : Nat) (hj : j < events.length), events[j].date = date → j = i) →
        binarySearch fuel events date = .ok (some (i : Int))) ∧
      ((∀ e ∈ events, e.date ≠ date) → binarySearch fuel events date = .ok none) := by
  obtain ⟨res, hres, hsound, hfound⟩ :=
    binarySearchLoop_spec events date fuel 0 ((events.length : Int) - 1) (le_refl _) (by omega)
      (by omega)
  unfold binarySearch
  rw [hres]
  constructor
  · intro i hi hdate huniq
    have hne : res ≠ none :=
      hfound hsorted ⟨i, events[i], by omega, by omega, List.getElem?_eq_getElem hi, hdate⟩
    obtain ⟨j, rfl⟩ := Option.ne_none_iff_exists'.mp hne
    obtain ⟨h1, h2, ev, hev, hd⟩ := hsound j rfl
    obtain ⟨hj, hj'⟩ := List.getElem?_eq_some.mp hev
    have := huniq j.toNat hj (by rw [hj']; exact hd)
    congr 2
    omega
  · intro habsent
    cases res with
    | none => rfl
    | some j =>
      obtain ⟨_, _, ev, hev, hd⟩ := hsound j rfl
      exact absurd hd (habsent ev (List.getElem?_mem hev))

theorem binarySearch_exact_witness :
    (∀ (i : Nat) (hi : i < datedEvents.length), datedEvents[i].date = 20240102 →
        (∀ (j : Nat) (hj : j < datedEvents.length), datedEvents[j].date = 20240102 → j = i) →
        binarySearch 4 datedEvents 20240102 = .ok (some (i : Int))) ∧
      ((∀ e ∈ datedEvents, e.date ≠ 20240102) → binarySearch 4 datedEvents 20240102 = .ok none) :=
  binarySearch_exact datedEvents 20240102 4 (by unfold SortedBy; decide) (by decide)

/-! ## Further claims on the binary search -/

/-- C11: on any collection, sorted or not, empty or not, and with more than `n` units of fuel,
`binarySearch` terminates without an out-of-bounds read; an index it returns lies in
`[0, n-1]` and its cell is a record of the input whose date is the target; hence the result is
empty when no record carries the target date. -/
theorem binarySearch_total_sound (events : List Event) (date : Int) (fuel : Nat)
    (hfuel : events.length < fuel) :
    ∃ res, binarySearch fuel events date = .ok res ∧
      (∀ i, res = some i → 0 ≤ i ∧ i < (events.length : Int) ∧
        ∃ ev, events[i.toNat]? = some ev ∧ ev ∈ events ∧ ev.date = date) ∧
      ((∀ e ∈ events, e.date ≠ date) → res = none) := by
  obtain ⟨res, hres, hsound, _⟩ :=
    binarySearchLoop_spec events date fuel 0 ((events.length : Int) - 1) (le_refl _) (by omega)
      (by omega)
  have hs : ∀ i, res = some i → 0 ≤ i ∧ i < (events.length : Int) ∧
      ∃ ev, events[i.toNat]? = some ev ∧ ev ∈ events ∧ ev.date = date := by
    intro i hi
    obtain ⟨h1, h2, ev, hev, hd⟩ := hsound i hi
    exact ⟨h1, by omega, ev, hev, List.getElem?_mem hev, hd⟩
  refine ⟨res, hres, hs, ?_⟩
  intro habsent
  cases res with
  | none => rfl
  | some j =>
    obtain ⟨_, _, ev, _, hmem, hd⟩ := hs j rfl
    exact absurd hd (habsent ev hmem)

theorem binarySearch_total_sound_witness :
    ∃ res, binarySearch 4 scenarioEvents 20240105 = .ok res ∧
      (∀ i, res = some i → 0 ≤ i ∧ i < (scenarioEvents.length : Int) ∧
        ∃ ev, scenarioEvents[i.toNat]? = some ev ∧ ev ∈ scenarioEvents ∧ ev.date = 20240105) ∧
      ((∀ e ∈ scenarioEvents, e.date ≠ 20240105) → res = none) :=
  binarySearch_total_sound scenarioEvents 20240105 4 (by decide)

/-- C12: on a collection sorted ascending by date in which at least one record carries the
target date (duplicates allowed), and with more than `n` units of fuel, `binarySearch` returns
a non-empty result, and the record it points to carries the target date. -/
theorem binarySearch_finds_present (events : List Event) (date : Int) (fuel : Nat)
    (hsorted : SortedBy Event.date events) (hfuel : events.length < fuel)
    (hpresent : ∃ e ∈ events, e.date = date) :
    ∃ (i : Int) (ev : Event), binarySearch fuel events date = .ok (some i) ∧
      events[i.toNat]? = some ev ∧ ev.date = date := by
  obtain ⟨res, hres, hsound, hfound⟩ :=
    binarySearchLoop_spec events date fuel 0 ((events.length : Int) - 1) (le_refl _) (by omega)
      (by omega)
  obtain ⟨e, hmem, hd⟩ := hpresent
  obtain ⟨t, ht⟩ := List.mem_iff_getElem?.mp hmem
  have htl : t < events.length := (List.getElem?_eq_some.mp ht).1
  have hne : res ≠ none := hfound hsorted ⟨t, e, by omega, by omega, ht, hd⟩
  obtain ⟨j, rfl⟩ := Option.ne_none_iff_exists'.mp hne
  obtain ⟨_, _, ev, hev, hdv⟩ := hsound j rfl
  exact ⟨j, ev, hres, hev, hdv⟩

theorem binarySearch_finds_present_witness :
    ∃ (i : Int) (ev : Event), binarySearch 4 sameDayEvents 20240101 = .ok (some i) ∧
      sameDayEvents[i.toNat]? = some ev ∧ ev.date = 20240101 :=
  binarySearch_finds_present sameDayEvents 20240101 4 (by unfold SortedBy; decide) (by decide)
    ⟨⟨"Assembly", "", 20240101, 1⟩, by decide, rfl⟩

/-- C16: on three records that all carry the date `20240101` (a collection sorted by date),
`binarySearch` for that date returns position `1`, although position `0` carries the date too:
the result is not the first matching record. -/
theorem binarySearch_not_first (fuel : Nat) :
    SortedBy Event.date sameDayEvents ∧
      binarySearch (fuel + 1) sameDayEvents 20240101 = .ok (some 1) ∧
      (sameDayEvents[0]?).map Event.date = some 20240101 ∧
      (sameDayEvents[1]?).map Event.date = some 20240101 := by
  refine ⟨by unfold SortedBy; decide, ?_, by decide, by decide⟩
  unfold binarySearch binarySearchLoop
  rfl

/-! ## Date formatting -/

theorem decimalDigits_fuel (f g n : Nat) (hf : n < f) (hg : n < g) :
    decimalDigits f n = decimalDigits g n := by
  induction f generalizing g n with
  | zero => omega
  | succ f ih =>
    cases g with
    | zero => omega
    | succ g =>
      unfold decimalDigits
      by_cases h : n < 10
      · rw [if_pos h, if_pos h]
      · rw [if_neg h, if_neg h, ih g (n / 10) (by omega) (by omega)]

theorem printDecimal_of_lt (n : Nat) (h : n < 10) : printDecimal n = [Nat.digitChar n] := by
  unfold printDecimal decimalDigits
  rw [if_pos h]

theorem printDecimal_of_ge (n : Nat) (h : 10 ≤ n) :
    printDecimal n = printDecimal (n / 10) ++ [Nat.digitChar (n % 10)] := by
  unfold printDecimal
  rw [decimalDigits, if_neg (by omega),
    decimalDigits_fuel n (n / 10 + 1) (n / 10) (by omega) (by omega)]

theorem printPadded_natCast (width n : Nat) :
    printPadded width (n : Int) = zeroFill width (printDecimal n) := by
  unfold printPadded
  rw [if_neg (by omega), Int.toNat_natCast]

theorem zeroFill_two (m : Nat) (h : m < 100) :
    zeroFill 2 (printDecimal m) = [Nat.digitChar (m / 10), Nat.digitChar (m % 10)] := by
  by_cases h1 : m < 10
  · rw [printDecimal_of_lt m h1, show m / 10 = 0 from by omega, show m % 10 = m from by omega]
    rfl
  · rw [printDecimal_of_ge m (by omega), printDecimal_of_lt (m / 10) (by omega)]
    rfl

theorem zeroFill_four (y : Nat) (h : y < 10000) :
    zeroFill 4 (printDecimal y) =
      [Nat.digitChar (y / 1000), Nat.digitChar (y / 100 % 10), Nat.digitChar (y / 10 % 10),
        Nat.digitChar (y % 10)] := by
  by_cases h1 : y < 10
  · rw [printDecimal_of_lt y h1, show y / 1000 = 0 from by omega,
      show y / 100 % 10 = 0 from by omega, show y / 10 % 10 = 0 from by omega,
      show y % 10 = y from by omega]
    rfl
  · by_cases h2 : y < 100
    · rw [printDecimal_of_ge y (by omega), printDecimal_of_lt (y / 10) (by omega),
        show y / 1000 = 0 from by omega, show y / 100 % 10 = 0 from by omega,
        show y / 10 % 10 = y / 10 from by omega]
      rfl
    · by_cases h3 : y < 1000
      · rw [printDecimal_of_ge y (by omega), printDecimal_of_ge (y / 10) (by omega),
          printDecimal_of_lt (y / 10 / 10) (by omega),
          show y / 1000 = 0 from by omega, show y / 10 / 10 = y / 100 % 10 from by omega]
        rfl
      · rw [printDecimal_of_ge y (by omega), printDecimal_of_ge (y / 10) (by omega),
          printDecimal_of_ge (y / 10 / 10) (by omega),
          printDecimal_of_lt (y / 10 / 10 / 10) (by omega),
          show y / 10 / 10 / 10 = y / 1000 from by omega,
          show y / 10 / 10 % 10 = y / 100 % 10 from by omega]
        rfl

theorem digitChar_value (k : Nat) (h : k < 10) : (Nat.digitChar k).toNat - 48 = k := by
  revert k
  decide

/-- C13: for a date `d` with `0 ≤ d ≤ 99999999`, `formatDate(d)` is the ten-character text made
of `d / 10000` on four digits, `'/'`, `(d / 100) % 100` on two digits, `'/'` and `d % 100` on two
digits, each filled with zeros on the left; its eight digits are the decimal digits of `d`, so
that removing the two slashes and reading the digits gives `d` back; and `20240115` renders as
`2024/01/15`. -/
theorem formatDate_digits (d : Int) (h₀ : 0 ≤ d) (h₁ : d ≤ 99999999) :
    ∃ s, formatDate d = .ok s ∧ s.length = 10 ∧
      s.data = printPadded 4 (d / 10000) ++ '/' :: printPadded 2 (d / 100 % 100)
        ++ '/' :: printPadded 2 (d % 100) ∧
      s.data =
        [Nat.digitChar (d.toNat / 10000000 % 10), Nat.digitChar (d.toNat / 1000000 % 10),
         Nat.digitChar (d.toNat / 100000 % 10), Nat.digitChar (d.toNat / 10000 % 10), '/',
         Nat.digitChar (d.toNat / 1000 % 10), Nat.digitChar (d.toNat / 100 % 10), '/',
         Nat.digitChar (d.toNat / 10 % 10), Nat.digitChar (d.toNat % 10)] ∧
      readDecimal (s.data.filter (fun c => c != '/')) = d.toNat ∧
      formatDate 20240115 = .ok "2024/01/15" := by
  obtain ⟨n, rfl⟩ : ∃ n : Nat, d = (n : Int) := ⟨d.toNat, by omega⟩
  have hn : n < 100000000 := by omega
  have ey : ((n : Int)).tdiv 10000 = ((n / 10000 : Nat) : Int) := by
    rw [Int.tdiv_eq_ediv (by omega) (by omega)]; omega
  have em : (((n : Int)).tdiv 100).tmod 100 = ((n / 100 % 100 : Nat) : Int) := by
    rw [Int.tdiv_eq_ediv (by omega) (by omega), Int.tmod_eq_emod (by omega) (by omega)]; omega
  have ed : ((n : Int)).tmod 100 = ((n % 100 : Nat) : Int) := by
    rw [Int.tmod_eq_emod (by omega) (by omega)]; omega
  have ey' : (n : Int) / 10000 = ((n / 10000 : Nat) : Int) := by omega
  have em' : (n : Int) / 100 % 100 = ((n / 100 % 100 : Nat) : Int) := by omega
  have ed' : (n : Int) % 100 = ((n % 100 : Nat) : Int) := by omega
  have hy := zeroFill_four (n / 10000) (by omega)
  have hm := zeroFill_two (n / 100 % 100) (by omega)
  have hd := zeroFill_two (n % 100) (by omega)
  rw [show n / 10000 / 1000 = n / 10000000 % 10 from by omega,
    show n / 10000 / 100 % 10 = n / 1000000 % 10 from by omega,
    show n / 10000 / 10 % 10 = n / 100000 % 10 from by omega] at hy
  rw [show n / 100 % 100 / 10 = n / 1000 % 10 from by omega,
    show n / 100 % 100 % 10 = n / 100 % 10 from by omega] at hm
  rw [show n % 100 / 10 = n / 10 % 10 from by omega,
    show n % 100 % 10 = n % 10 from by omega] at hd
  have htext : printPadded 4 ((n / 10000 : Nat) : Int) ++ '/' ::
        printPadded 2 ((n / 100 % 100 : Nat) : Int) ++ '/' :: printPadded 2 ((n % 100 : Nat) : Int)
      = [Nat.digitChar (n / 10000000 % 10), Nat.digitChar (n / 1000000 % 10),
         Nat.digitChar (n / 100000 % 10), Nat.digitChar (n / 10000 % 10), '/',
         Nat.digitChar (n / 1000 % 10), Nat.digitChar (n / 100 % 10), '/',
         Nat.digitChar (n / 10 % 10), Nat.digitChar (n % 10)] := by
    rw [printPadded_natCast, printPadded_natCast, printPadded_natCast, hy, hm, hd]
    rfl
  refine ⟨String.mk [Nat.digitChar (n / 10000000 % 10), Nat.digitChar (n / 1000000 % 10),
         Nat.digitChar (n / 100000 % 10), Nat.digitChar (n / 10000 % 10), '/',
         Nat.digitChar (n / 1000 % 10), Nat.digitChar (n / 100 % 10), '/',
         Nat.digitChar (n / 10 % 10), Nat.digitChar (n % 10)], ?_, rfl, ?_, ?_, ?_, by decide⟩
  · unfold formatDate
    simp only [ey, em, ed]
    rw [htext]
    rfl
  · rw [ey', em', ed', htext]
  · rw [Int.toNat_natCast]
  · rw [Int.toNat_natCast]
    have hne : ∀ k, k < 10 → (Nat.digitChar k != '/') = true := by decide
    simp only [List.filter, hne _ (Nat.mod_lt _ (by decide : 0 < 10))]
    simp only [show (('/' : Char) != '/') = false from by decide]
    unfold readDecimal
    simp only [List.foldl, digitChar_value _ (Nat.mod_lt _ (by decide : 0 < 10))]
    omega

theorem formatDate_digits_witness :
    ∃ s, formatDate 20240115 = .ok s ∧ s.length = 10 ∧
      s.data = printPadded 4 (20240115 / 10000) ++ '/' :: printPadded 2 (20240115 / 100 % 100)
        ++ '/' :: printPadded 2 (20240115 % 100) ∧
      s.data =
        [Nat.digitChar ((20240115 : Int).toNat / 10000000 % 10),
         Nat.digitChar ((20240115 : Int).toNat / 1000000 % 10),
         Nat.digitChar ((20240115 : Int).toNat / 100000 % 10),
         Nat.digitChar ((20240115 : Int).toNat / 10000 % 10), '/',
         Nat.digitChar ((20240115 : Int).toNat / 1000 % 10),
         Nat.digitChar ((20240115 : Int).toNat / 100 % 10), '/',
         Nat.digitChar ((20240115 : Int).toNat / 10 % 10),
         Nat.digitChar ((20240115 : Int).toNat % 10)] ∧
      readDecimal (s.data.filter (fun c => c != '/')) = (20240115 : Int).toNat ∧
      formatDate 20240115 = .ok "2024/01/15" :=
  formatDate_digits 20240115 (by decide) (by decide)

/-! ## Depth of the built tree -/

theorem getAt_ok_natCast {α : Type} {xs : List α} {i : Nat} {x : α}
    (h : getAt xs (i : Int) = .ok x) : xs[i]? = some x := by
  unfold getAt at h
  rw [if_pos (by omega), Int.toNat_natCast] at h
  cases hx : xs[i]? with
  | none => rw [hx] at h; cases h
  | some y => rw [hx] at h; cases h; rfl

theorem setAt_ok_natCast {α : Type} {xs ys : List α} {i : Nat} {v : α}
    (h : setAt xs (i : Int) v = .ok ys) : i < xs.length ∧ ys = xs.set i v := by
  unfold setAt at h
  rw [Int.toNat_natCast] at h
  by_cases hc : 0 ≤ (i : Int) ∧ i < xs.length
  · rw [if_pos hc] at h
    cases h
    exact ⟨hc.2, rfl⟩
  · rw [if_neg hc] at h
    cases h

theorem occupied_congr {tree tree' : List (List Event)} {j : Nat} (h : tree'[j]? = tree[j]?) :
    occupied tree' j = occupied tree j := by
  unfold occupied
  rw [h]

theorem occupied_of_getElem? {tree : List (List Event)} {j : Nat} {x : Event} {xs : List Event}
    (h : tree[j]? = some (x :: xs)) : occupied tree j = true := by
  unfold occupied
  rw [h]

theorem ne_nil_of_occupied {tree : List (List Event)} {j : Nat} {l : List Event}
    (h : tree[j]? = some l) (ho : occupied tree j = true) : l ≠ [] := by
  intro hl
  subst hl
  unfold occupied at ho
  rw [h] at ho
  cases ho

theorem Shape.occupied_root {tree : List (List Event)} {k s e : Nat} (h : Shape tree k s e) :
    occupied tree k = true := by
  cases h with
  | leaf _ _ h₁ _ _ => exact h₁
  | inner _ _ _ _ h₁ _ _ => exact h₁

theorem Shape.transport {tree tree' : List (List Event)} {k s e : Nat} (h : Shape tree k s e)
    (hsame : ∀ j, Desc k j → tree'[j]? = tree[j]?) : Shape tree' k s e := by
  induction h with
  | leaf node pos h₀ h₁ h₂ =>
    refine Shape.leaf node pos ?_ ?_ ?_
    · rw [occupied_congr (hsame _ Desc.self)]; exact h₀
    · rw [occupied_congr (hsame _ (Desc.left Desc.self))]; exact h₁
    · rw [occupied_congr (hsame _ (Desc.right Desc.self))]; exact h₂
  | inner node start stop hlt h₀ _ _ ihl ihr =>
    refine Shape.inner node start stop hlt ?_
      (ihl (fun j hj => hsame j hj.of_left)) (ihr (fun j hj => hsame j hj.of_right))
    rw [occupied_congr (hsame _ Desc.self)]; exact h₀

/-- Whenever `buildTree` returns, on an interval `s ≤ e` and an array whose cells below `k`
hold no record yet, it has changed cells below `k` only and has stored a tree of the shape of
its recursion: a leaf where `s = e`, two stored children otherwise. -/
theorem buildTree_shape (events : List Event) :
    ∀ (fuel : Nat) (tree tree' : List (List Event)) (k s e : Nat),
      s ≤ e → (∀ j, Desc k j → occupied tree j = false) →
      buildTree events fuel tree (k : Int) (s : Int) (e : Int) = .ok tree' →
      (∀ j, ¬ Desc k j → tree'[j]? = tree[j]?) ∧ Shape tree' k s e := by
  intro fuel
  induction fuel with
  | zero =>
    intro tree tree' k s e _ _ h
    unfold buildTree at h
    cases h
  | succ fuel ih =>
    intro tree tree' k s e hse hempty h
    unfold buildTree at h
    by_cases hleaf : (s : Int) = (e : Int)
    · have hse' : s = e := by omega
      subst hse'
      rw [if_pos rfl] at h
      simp only [bind, Except.bind] at h
      cases hget : getAt events (s : Int) with
      | error err => rw [hget] at h; cases h
      | ok ev =>
        rw [hget] at h
        obtain ⟨hk, rfl⟩ := setAt_ok_natCast h
        have hframe : ∀ j, k ≠ j → (tree.set k [ev])[j]? = tree[j]? :=
          fun j hne => List.getElem?_set_ne hne
        refine ⟨fun j hj => hframe j (fun hkj => hj (hkj ▸ Desc.self)), Shape.leaf k s ?_ ?_ ?_⟩
        · exact occupied_of_getElem? (getElem?_set_of_lt tree k [ev] hk)
        · rw [occupied_congr (hframe _ (by omega))]
          exact hempty _ (Desc.left Desc.self)
        · rw [occupied_congr (hframe _ (by omega))]
          exact hempty _ (Desc.right Desc.self)
    · have hlt : s < e := by omega
      rw [if_neg hleaf] at h
      have e1 : (2 : Int) * (k : Int) + 1 = ((2 * k + 1 : Nat) : Int) := by push_cast; ring
      have e2 : (2 : Int) * (k : Int) + 2 = ((2 * k + 2 : Nat) : Int) := by push_cast; ring
      have e3 : (((s + e) / 2 : Nat) : Int) + 1 = (((s + e) / 2 + 1 : Nat) : Int) := by
        push_cast; ring
      simp only [bind, Except.bind] at h
      rw [tdiv_two_natCast, e1, e2, e3] at h
      cases hb₁ : buildTree events fuel tree ((2 * k + 1 : Nat) : Int) (s : Int)
          (((s + e) / 2 : Nat) : Int) with
      | error err => rw [hb₁] at h; cases h
      | ok t₁ =>
        rw [hb₁] at h
        simp only [] at h
        cases hb₂ : buildTree events fuel t₁ ((2 * k + 2 : Nat) : Int)
            (((s + e) / 2 + 1 : Nat) : Int) (e : Int) with
        | error err => rw [hb₂] at h; cases h
        | ok t₂ =>
          rw [hb₂] at h
          simp only [] at h
          obtain ⟨hframe₁, hshape₁⟩ := ih tree t₁ (2 * k + 1) s ((s + e) / 2) (by omega)
            (fun j hj => hempty j hj.of_left) hb₁
          obtain ⟨hframe₂, hshape₂⟩ := ih t₁ t₂ (2 * k + 2) ((s + e) / 2 + 1) e (by omega)
            (fun j hj => by
              rw [occupied_congr (hframe₁ j (fun hj' => Desc.disjoint k j hj' hj))]
              exact hempty j hj.of_right) hb₂
          have hshape₁' : Shape t₂ (2 * k + 1) s ((s + e) / 2) :=
            hshape₁.transport (fun j hj => hframe₂ j (fun hj' => Desc.disjoint k j hj hj'))
          cases hl : getAt t₂ ((2 * k + 1 : Nat) : Int) with
          | error err => rw [hl] at h; cases h
          | ok lhs =>
            rw [hl] at h
            simp only [] at h
            cases hr : getAt t₂ ((2 * k + 2 : Nat) : Int) with
            | error err => rw [hr] at h; cases h
            | ok rhs =>
              rw [hr] at h
              simp only [] at h
              cases hc : getAt t₂ (k : Int) with
              | error err => rw [hc] at h; cases h
              | ok cur =>
                rw [hc] at h
                simp only [] at h
                obtain ⟨hk, rfl⟩ := setAt_ok_natCast h
                have hset : ∀ j, k ≠ j →
                    (t₂.set k (cur ++ stdMerge byDate lhs rhs))[j]? = t₂[j]? :=
                  fun j hne => List.getElem?_set_ne hne
                have hlne : lhs ≠ [] :=
                  ne_nil_of_occupied (getAt_ok_natCast hl) hshape₁'.occupied_root
                have hmne : cur ++ stdMerge byDate lhs rhs ≠ [] := by
                  intro hnil
                  have hm : stdMerge byDate lhs rhs = [] := (List.append_eq_nil.mp hnil).2
                  have hlen := (stdMerge_perm byDate lhs rhs).length_eq
                  rw [hm, List.length_nil, List.length_append] at hlen
                  exact hlne (List.length_eq_zero.mp (by omega))
                obtain ⟨x, xs, hx⟩ := List.exists_cons_of_ne_nil hmne
                refine ⟨?_, Shape.inner k s e hlt ?_ ?_ ?_⟩
                · intro j hj
                  rw [hset j (fun hkj => hj (hkj ▸ Desc.self)),
                    hframe₂ j (fun hd => hj hd.of_right), hframe₁ j (fun hd => hj hd.of_left)]
                · have hcell : (t₂.set k (cur ++ stdMerge byDate lhs rhs))[k]? = some (x :: xs) := by
                    rw [← hx]
                    exact getElem?_set_of_lt t₂ k _ hk
                  exact occupied_of_getElem? hcell
                · exact hshape₁'.transport (fun j hj => hset j (by have := hj.le; omega))
                · exact hshape₂.transport (fun j hj => hset j (by have := hj.le; omega))

/-- The depth measured in the array below a node of a given shape is `⌈log2 w⌉` for an interval
of `w` positions. -/
theorem nodeDepth_of_shape {tree : List (List Event)} {k s e : Nat} (h : Shape tree k s e) :
    ∀ fuel, e - s < fuel → nodeDepth tree fuel k = Nat.clog 2 (e - s + 1) := by
  induction h with
  | leaf node pos _ h₁ h₂ =>
    intro fuel hf
    obtain ⟨f, rfl⟩ : ∃ f, fuel = f + 1 := ⟨fuel - 1, by omega⟩
    unfold nodeDepth
    rw [h₁, h₂, show pos - pos + 1 = 1 from by omega, Nat.clog_of_right_le_one (le_refl 1)]
    rfl
  | inner node start stop hlt _ hsl hsr ihl ihr =>
    intro fuel hf
    obtain ⟨f, rfl⟩ : ∃ f, fuel = f + 1 := ⟨fuel - 1, by omega⟩
    unfold nodeDepth
    rw [hsl.occupied_root, hsr.occupied_root, ihl f (by omega), ihr f (by omega)]
    have hl : (start + stop) / 2 - start + 1 = (stop - start + 1 + 2 - 1) / 2 := by omega
    have hr : stop - ((start + stop) / 2 + 1) + 1 ≤ (start + stop) / 2 - start + 1 := by omega
    rw [Nat.clog_of_two_le (by decide) (by omega : 2 ≤ stop - start + 1), ← hl,
      max_eq_left (Nat.clog_mono_right 2 hr), Nat.add_comm]
    rfl

/-- C14: for a collection of `n ≥ 1` records (and at least `n` units of fuel) the tree that the
constructor, through `buildTree(events, 0, 0, n-1)`, stores in the node array has the shape of
the recursion (a leaf where `start = stop`, two stored children otherwise) and its depth, in
edges on the longest path from the root cell to a leaf, is `⌈log2 n⌉`: the least `k` with
`n ≤ 2 ^ k`. -/
theorem segmentTree_depth_eq_clog (events : List Event) (fuel : Nat) (hne : events ≠ [])
    (hfuel : events.length ≤ fuel) :
    ∃ t, SegmentTree.build fuel events = .ok t ∧
      Shape t.tree 0 0 (events.length - 1) ∧
      treeDepth t.tree = Nat.clog 2 events.length ∧
      events.length ≤ 2 ^ Nat.clog 2 events.length ∧
      ∀ k, events.length ≤ 2 ^ k → Nat.clog 2 events.length ≤ k := by
  have hpos : 0 < events.length := List.length_pos.mpr hne
  obtain ⟨tree, hb, hlen, _⟩ := build_ok events fuel hne hfuel
  have hrun : buildTree events fuel (List.replicate (4 * events.length) []) ((0 : Nat) : Int)
      ((0 : Nat) : Int) ((events.length - 1 : Nat) : Int) = .ok tree := by
    unfold SegmentTree.build at hb
    have e1 : (4 * (events.length : Int)).toNat = 4 * events.length := by omega
    have e2 : (events.length : Int) - 1 = ((events.length - 1 : Nat) : Int) := by omega
    simp only [bind, Except.bind, pure, Except.pure] at hb
    rw [e1, e2] at hb
    cases hrun : buildTree events fuel (List.replicate (4 * events.length) []) 0 0
        ((events.length - 1 : Nat) : Int) with
    | error err => rw [hrun] at hb; cases hb
    | ok tree₀ =>
      rw [hrun] at hb
      have := Except.ok.inj hb
      cases this
      rfl
  have hinit : ∀ j, Desc 0 j →
      occupied (List.replicate (4 * events.length) ([] : List Event)) j = false := by
    intro j _
    unfold occupied
    rw [List.getElem?_replicate]
    by_cases hj : j < 4 * events.length
    · rw [if_pos hj]
    · rw [if_neg hj]
  obtain ⟨_, hshape⟩ := buildTree_shape events fuel _ tree 0 0 (events.length - 1)
    (Nat.zero_le _) hinit hrun
  refine ⟨_, hb, hshape, ?_, Nat.le_pow_clog (by decide) _, fun k hk =>
    (Nat.le_pow_iff_clog_le (by decide)).mp hk⟩
  unfold treeDepth
  have hd := nodeDepth_of_shape hshape tree.length (by omega)
  rw [show events.length - 1 - 0 + 1 = events.length from by omega] at hd
  exact hd

theorem segmentTree_depth_eq_clog_witness :
    ∃ t, SegmentTree.build 3 scenarioEvents = .ok t ∧
      Shape t.tree 0 0 (scenarioEvents.length - 1) ∧
      treeDepth t.tree = Nat.clog 2 scenarioEvents.length ∧
      scenarioEvents.length ≤ 2 ^ Nat.clog 2 scenarioEvents.length ∧
      ∀ k, scenarioEvents.length ≤ 2 ^ k → Nat.clog 2 scenarioEvents.length ≤ k :=
  segmentTree_depth_eq_clog scenarioEvents 3 (by decide) (by decide)

/-! ## Further claims on the merge sort -/

/-- C15: on an empty or a one-record collection the call
`mergeSortByPriority(events, 0, size - 1)` returns at its guard `left >= right` and leaves the
collection as it was; one unit of fuel is enough, so no nested call, loop or merge is run. The
guard returns the vector untouched for any vector and any `left >= right`, in range or not,
which shows that no cell is accessed. -/
theorem mergeSortByPriority_small_noop (events : List Event) (fuel : Nat)
    (hsmall : events.length ≤ 1) :
    mergeSortByPriority (fuel + 1) events 0 ((events.length : Int) - 1) = .ok events ∧
      mergeSortByPriority 1 events 0 ((events.length : Int) - 1) = .ok events ∧
      ∀ (xs : List Event) (left right : Int), left ≥ right →
        mergeSortByPriority (fuel + 1) xs left right = .ok xs := by
  have hguard : ∀ (f : Nat) (xs : List Event) (left right : Int), left ≥ right →
      mergeSortByPriority (f + 1) xs left right = .ok xs := by
    intro f xs left right h
    unfold mergeSortByPriority
    rw [if_pos h]
    rfl
  exact ⟨hguard fuel events 0 _ (by omega), hguard 0 events 0 _ (by omega), hguard fuel⟩

theorem mergeSortByPriority_small_noop_witness :
    mergeSortByPriority (0 + 1) [] 0 (-1) = .ok [] ∧
      mergeSortByPriority 1 [] 0 (-1) = .ok [] ∧
      ∀ (xs : List Event) (left right : Int), left ≥ right →
        mergeSortByPriority (0 + 1) xs left right = .ok xs :=
  mergeSortByPriority_small_noop [] 0 (by decide)

/-- C18: for a collection of `n ≥ 1` records (and at least `n + 2` units of fuel),
`mergeSortByPriority(events, 0, n-1)` yields exactly the stable ascending-priority sort of the
reversed input: the result is ordered by non-decreasing priority and, for every priority, the
records of that priority appear in the reverse of their order before the sort. -/
theorem mergeSortByPriority_eq_stableSort_reverse (events : List Event) (fuel : Nat)
    (hne : events ≠ []) (hfuel : events.length + 2 ≤ fuel) :
    mergeSortByPriority fuel events 0 ((events.length : Int) - 1)
        = .ok (stableSortBy Event.priority events.reverse) ∧
      SortedBy Event.priority (stableSortBy Event.priority events.reverse) ∧
      ∀ d, withKey Event.priority d (stableSortBy Event.priority events.reverse)
        = (withKey Event.priority d events).reverse := by
  have hpos : 0 < events.length := List.length_pos.mpr hne
  have h := mergeSort_spec fuel [] events [] 0 (events.length - 1) rfl (by omega) hpos hfuel
  simp only [List.nil_append, List.append_nil] at h
  have e : (events.length : Int) - 1 = ((events.length - 1 : Nat) : Int) := by omega
  refine ⟨?_, stableSortBy_sorted _ _, ?_⟩
  · rw [e]
    exact h
  · intro d
    rw [withKey_stableSortBy]
    unfold withKey
    exact List.filter_reverse _ _

theorem mergeSortByPriority_eq_stableSort_reverse_witness :
    mergeSortByPriority 5 tieEvents 0 2
        = .ok [⟨"B", "", 20240101, 1⟩, ⟨"C", "", 20240101, 2⟩, ⟨"A", "", 20240101, 2⟩] ∧
      SortedBy Event.priority (stableSortBy Event.priority tieEvents.reverse) ∧
      ∀ d, withKey Event.priority d (stableSortBy Event.priority tieEvents.reverse)
        = (withKey Event.priority d tieEvents).reverse :=
  mergeSortByPriority_eq_stableSort_reverse tieEvents 5 (by decide) (by decide)

/-! ## Index bounds and queries on arbitrary ranges -/

theorem Reached.bounds {n k s e : Nat} (hn : 0 < n) (h : Reached n k s e) :
    s ≤ e ∧ e < n ∧ k < 4 * n ∧ ∃ p, p * (e - s) < n ∧ k + 1 < 2 * p := by
  induction h with
  | root => exact ⟨Nat.zero_le _, by omega, by omega, 1, by omega, by omega⟩
  | @left k s e _ hlt ih =>
    obtain ⟨_, he, _, p, hp₁, hp₂⟩ := ih
    have hpn : p < n := by
      have : p * 1 ≤ p * (e - s) := Nat.mul_le_mul_left p (by omega)
      omega
    refine ⟨by omega, by omega, by omega, 2 * p, ?_, by omega⟩
    have h1 : 2 * ((s + e) / 2 - s) ≤ e - s := by omega
    have h2 : p * (2 * ((s + e) / 2 - s)) ≤ p * (e - s) := Nat.mul_le_mul_left p h1
    have h3 : (2 * p) * ((s + e) / 2 - s) = p * (2 * ((s + e) / 2 - s)) := by ring
    omega
  | @right k s e _ hlt ih =>
    obtain ⟨_, he, _, p, hp₁, hp₂⟩ := ih
    have hpn : p < n := by
      have : p * 1 ≤ p * (e - s) := Nat.mul_le_mul_left p (by omega)
      omega
    refine ⟨by omega, he, by omega, 2 * p, ?_, by omega⟩
    have h1 : 2 * (e - ((s + e) / 2 + 1)) ≤ e - s := by omega
    have h2 : p * (2 * (e - ((s + e) / 2 + 1))) ≤ p * (e - s) := Nat.mul_le_mul_left p h1
    have h3 : (2 * p) * (e - ((s + e) / 2 + 1)) = p * (2 * (e - ((s + e) / 2 + 1))) := by ring
    omega

theorem slice_cons_succ {α : Type} (x : α) (xs : List α) (a b : Nat) :
    slice (x :: xs) (a + 1) (b + 1) = slice xs a b := by
  unfold slice
  rw [List.drop_succ_cons, show b + 1 + 1 - (a + 1) = b + 1 - a from by omega]

theorem slice_cons_zero {α : Type} (x : α) (xs : List α) (b : Nat) :
    slice (x :: xs) 0 (b + 1) = x :: slice xs 0 b := by
  unfold slice
  rw [List.drop_zero, List.drop_zero, show b + 1 + 1 - 0 = (b + 1 - 0) + 1 from by omega,
    List.take_succ_cons]

theorem slice_cons_zero_zero {α : Type} (x : α) (xs : List α) :
    slice (x :: xs) 0 0 = [x] := by
  unfold slice
  simp

/-- The records at the positions of `[l, r]`, in a list whose first position is `p`, are a
slice of the list. -/
theorem pickRange_eq_slice (l r : Int) :
    ∀ (es : List Event) (p : Nat),
      pickRange l r (p : Int) es =
        if r < (p : Int) ∨ l > (p : Int) + (es.length : Int) - 1 then []
        else slice es ((max l (p : Int)).toNat - p)
          ((min r ((p : Int) + (es.length : Int) - 1)).toNat - p) := by
  intro es
  induction es with
  | nil =>
    intro p
    unfold pickRange
    split
    · rfl
    · unfold slice
      simp
  | cons e es ih =>
    intro p
    unfold pickRange
    have hnext : (p : Int) + 1 = ((p + 1 : Nat) : Int) := by push_cast; rfl
    rw [hnext, ih (p + 1)]
    simp only [List.length_cons]
    push_cast
    by_cases hin : l ≤ (p : Int) ∧ (p : Int) ≤ r
    · rw [if_pos hin,
        if_neg (show ¬ (r < (p : Int) ∨ l > (p : Int) + ((es.length : Int) + 1) - 1) from by
          omega)]
      have ea : (max l (p : Int)).toNat - p = 0 := by omega
      rw [ea]
      by_cases hr : r < (p : Int) + 1
      · rw [if_pos (show r < (p : Int) + 1 ∨ l > (p : Int) + 1 + (es.length : Int) - 1 from
          Or.inl hr)]
        have eb : (min r ((p : Int) + ((es.length : Int) + 1) - 1)).toNat - p = 0 := by omega
        rw [eb, slice_cons_zero_zero]
      · rw [if_neg (show ¬ (r < (p : Int) + 1 ∨ l > (p : Int) + 1 + (es.length : Int) - 1) from by
          omega)]
        by_cases hlen : es.length = 0
        · have hes : es = [] := List.length_eq_zero.mp hlen
          subst hes
          unfold slice
          simp
        obtain ⟨b, hb⟩ : ∃ b, (min r ((p : Int) + ((es.length : Int) + 1) - 1)).toNat - p
            = b + 1 := ⟨(min r ((p : Int) + ((es.length : Int) + 1) - 1)).toNat - p - 1, by omega⟩
        have ea' : (max l ((p : Int) + 1)).toNat - (p + 1) = 0 := by omega
        have eb' : (min r ((p : Int) + 1 + (es.length : Int) - 1)).toNat - (p + 1) = b := by
          omega
        rw [hb, ea', eb', slice_cons_zero]
    · rw [if_neg hin]
      by_cases hr : r < (p : Int)
      · rw [if_pos (show r < (p : Int) ∨ l > (p : Int) + ((es.length : Int) + 1) - 1 from
            Or.inl hr),
          if_pos (show r < (p : Int) + 1 ∨ l > (p : Int) + 1 + (es.length : Int) - 1 from
            Or.inl (by omega))]
      · have hl : l > (p : Int) := by omega
        by_cases hfar : l > (p : Int) + ((es.length : Int) + 1) - 1
        · rw [if_pos (show r < (p : Int) ∨ l > (p : Int) + ((es.length : Int) + 1) - 1 from
              Or.inr hfar),
            if_pos (show r < (p : Int) + 1 ∨ l > (p : Int) + 1 + (es.length : Int) - 1 from
              Or.inr (by omega))]
        · rw [if_neg (show ¬ (r < (p : Int) ∨ l > (p : Int) + ((es.length : Int) + 1) - 1) from by
            omega)]
          obtain ⟨a, ha⟩ : ∃ a, (max l (p : Int)).toNat - p = a + 1 :=
            ⟨(max l (p : Int)).toNat - p - 1, by omega⟩
          by_cases hr1 : r < (p : Int) + 1
          · rw [if_pos (show r < (p : Int) + 1 ∨ l > (p : Int) + 1 + (es.length : Int) - 1 from
              Or.inl hr1), slice_of_lt _ _ _ (by omega)]
          · rw [if_neg (show ¬ (r < (p : Int) + 1 ∨ l > (p : Int) + 1 + (es.length : Int) - 1)
              from by omega)]
            obtain ⟨b, hb⟩ : ∃ b, (min r ((p : Int) + ((es.length : Int) + 1) - 1)).toNat - p
                = b + 1 :=
              ⟨(min r ((p : Int) + ((es.length : Int) + 1) - 1)).toNat - p - 1, by omega⟩
            have ea' : (max l ((p : Int) + 1)).toNat - (p + 1) = a := by omega
            have eb' : (min r ((p : Int) + 1 + (es.length : Int) - 1)).toNat - (p + 1) = b := by
              omega
            rw [ha, hb, ea', eb', slice_cons_succ]

theorem recordsInRange_eq_slice (events : List Event) (l r : Int) :
    recordsInRange events l r =
      if r < 0 ∨ l > (events.length : Int) - 1 then []
      else slice events (max l 0).toNat (min r ((events.length : Int) - 1)).toNat := by
  unfold recordsInRange
  have h := pickRange_eq_slice l r events 0
  simp only [Nat.cast_zero, zero_add, Nat.sub_zero] at h
  exact h

theorem query_spec (events : List Event) (fuel : Nat) (hne : events ≠ [])
    (hfuel : events.length ≤ fuel) :
    ∃ t, SegmentTree.build fuel events = .ok t ∧ t.tree.length = 4 * events.length ∧
      t.size = (events.length : Int) ∧
      ∀ l r : Int, t.query fuel l r
        = .ok (stableSortBy Event.date (recordsInRange events l r)) := by
  have hpos : 0 < events.length := List.length_pos.mpr hne
  obtain ⟨tree, hb, hlen, hinv⟩ := build_ok events fuel hne hfuel
  refine ⟨_, hb, hlen, rfl, ?_⟩
  intro l r
  unfold SegmentTree.query
  have e2 : (events.length : Int) - 1 = ((events.length - 1 : Nat) : Int) := by omega
  have hq := queryNode_spec hinv fuel l r (by omega)
  have hq' : queryNode tree fuel 0 0 ((events.length - 1 : Nat) : Int) l r = _ := hq
  simp only []
  rw [recordsInRange_eq_slice, e2, hq']
  congr 1
  simp only [Nat.cast_zero]
  split
  · rfl
  · rfl

/-! ## Claims on bounds and arbitrary ranges -/

/-- C17: for a collection of `n ≥ 1` records (and at least `n` units of fuel), the build on the
array of `4 * n` cells and every query `query(l, r)`, for any integers `l` and `r`, complete
without an out-of-bounds access, all accesses being checked; and every call
`buildTree(events, node, start, stop)` reached from the root call has `node < 4 * n`, a valid
interval `start ≤ stop ≤ n - 1`, children indices below `4 * n` when it has children, and has
written the `stop - start + 1` records of its interval in its cell. -/
theorem segmentTree_indices_in_bounds (events : List Event) (fuel : Nat) (hne : events ≠ [])
    (hfuel : events.length ≤ fuel) :
    ∃ t, SegmentTree.build fuel events = .ok t ∧ t.tree.length = 4 * events.length ∧
      t.size = (events.length : Int) ∧
      (∀ l r : Int, ∃ out, t.query fuel l r = .ok out) ∧
      ∀ node start stop, Reached events.length node start stop →
        node < 4 * events.length ∧ start ≤ stop ∧ stop < events.length ∧
        (start < stop → 2 * node + 2 < 4 * events.length) ∧
        ∃ cur, t.tree[node]? = some cur ∧ cur.length = stop + 1 - start := by
  have hpos : 0 < events.length := List.length_pos.mpr hne
  obtain ⟨tree, hb, hlen, hinv⟩ := build_ok events fuel hne hfuel
  obtain ⟨t, hb', _, _, hq⟩ := query_spec events fuel hne hfuel
  have ht : t = { tree := tree, size := (events.length : Int) } :=
    Except.ok.inj (hb'.symm.trans hb)
  subst ht
  refine ⟨_, hb, hlen, rfl, fun l r => ⟨_, hq l r⟩, ?_⟩
  intro node start stop hreach
  obtain ⟨h1, h2, h3, p, hp₁, hp₂⟩ := hreach.bounds hpos
  refine ⟨h3, h1, h2, ?_, ?_⟩
  · intro hlt
    have hpn : p < events.length := by
      have : p * 1 ≤ p * (stop - start) := Nat.mul_le_mul_left p (by omega)
      omega
    omega
  · obtain ⟨_, _, hval⟩ := (hinv.of_reached hreach).value
    refine ⟨_, hval, ?_⟩
    rw [(stableSortBy_perm _ _).length_eq, length_slice events start stop h2]

theorem segmentTree_indices_in_bounds_witness :
    ∃ t, SegmentTree.build 3 scenarioEvents = .ok t ∧
      t.tree.length = 4 * scenarioEvents.length ∧
      t.size = (scenarioEvents.length : Int) ∧
      (∀ l r : Int, ∃ out, t.query 3 l r = .ok out) ∧
      ∀ node start stop, Reached scenarioEvents.length node start stop →
        node < 4 * scenarioEvents.length ∧ start ≤ stop ∧ stop < scenarioEvents.length ∧
        (start < stop → 2 * node + 2 < 4 * scenarioEvents.length) ∧
        ∃ cur, t.tree[node]? = some cur ∧ cur.length = stop + 1 - start :=
  segmentTree_indices_in_bounds scenarioEvents 3 (by decide) (by decide)

/-- C19: on the tree built from a non-empty collection (with at least `n` units of fuel) and
for all integers `l` and `r`, `query(l, r)` terminates and returns the stable sort by date of
the records at the positions of `[l, r]` that exist, that is of `[l, r] ∩ [0, n-1]`: the empty
list when `l > r` or when the range misses `[0, n-1]`, the whole sorted collection when
`l ≤ 0` and `r ≥ n - 1`. -/
theorem segmentTree_query_any_range (events : List Event) (fuel : Nat) (hne : events ≠ [])
    (hfuel : events.length ≤ fuel) :
    ∃ t, SegmentTree.build fuel events = .ok t ∧
      ∀ l r : Int,
        t.query fuel l r = .ok (stableSortBy Event.date (recordsInRange events l r)) ∧
        (l > r ∨ r < 0 ∨ l > (events.length : Int) - 1 → t.query fuel l r = .ok []) ∧
        (l ≤ 0 ∧ r ≥ (events.length : Int) - 1 →
          t.query fuel l r = .ok (stableSortBy Event.date events)) := by
  have hpos : 0 < events.length := List.length_pos.mpr hne
  obtain ⟨t, hb, _, _, hq⟩ := query_spec events fuel hne hfuel
  refine ⟨t, hb, fun l r => ⟨hq l r, ?_, ?_⟩⟩
  · intro hout
    rw [hq l r, recordsInRange_eq_slice]
    by_cases hmiss : r < 0 ∨ l > (events.length : Int) - 1
    · rw [if_pos hmiss]
      rfl
    · rw [if_neg hmiss, slice_of_lt events _ _ (by omega)]
      rfl
  · intro hall
    rw [hq l r, recordsInRange_eq_slice, if_neg (by omega),
      show (max l 0).toNat = 0 from by omega,
      show (min r ((events.length : Int) - 1)).toNat = events.length - 1 from by omega,
      slice_full events _ (by omega)]

theorem segmentTree_query_any_range_witness :
    ∃ t, SegmentTree.build 3 scenarioEvents = .ok t ∧
      ∀ l r : Int,
        t.query 3 l r = .ok (stableSortBy Event.date (recordsInRange scenarioEvents l r)) ∧
        (l > r ∨ r < 0 ∨ l > (scenarioEvents.length : Int) - 1 → t.query 3 l r = .ok []) ∧
        (l ≤ 0 ∧ r ≥ (scenarioEvents.length : Int) - 1 →
          t.query 3 l r = .ok (stableSortBy Event.date scenarioEvents)) :=
  segmentTree_query_any_range scenarioEvents 3 (by decide) (by decide)

end Kalendaryo
